import Mathlib

/-!
# Verification of the array-backed binary max-heap (`src/data_structures/heap.js`)

Shallow embedding of the JavaScript `MaxHeap` class.  JavaScript records
`{priority, element}` are modelled by `Rcd`; a storage slot holds either
`null` (modelled `none`) or a record.  A JS `undefined` priority is modelled
by `none : Option Int`; JS numeric comparison `a < b` is `false` whenever a
side is `undefined`, which `jsLt` mirrors.  Storage is a Lean list indexed
from 0, with index 0 playing the JS sentinel role.

The recursive invariant-restoring routines `_float` / `_sink` of the source
use a `while` loop that re-checks its condition after a recursive call.  They
are embedded as fuel-indexed structural recursions (`floatF`, `sinkF`) that
mirror the JS bodies literally; termination is then a theorem: the
fuel-independence results below show a computable fuel bound
(`floatMeas`/`sinkMeas`) after which the result is stable, and the wrappers
`float`/`sink` run with that bound and satisfy the literal JS recursion
equations (`float_eq`, `sink_eq`).
-/

namespace AdsHeap

/-! ## Definitions: the embedded program -/

/-- A JS heap record `{priority, element}`.  `priority : Option Int` models a
JS number-or-undefined; `element : Option V` models an arbitrary payload
which may itself be `undefined` (`none`). -/
structure Rcd (V : Type) where
  priority : Option Int
  element : Option V
deriving DecidableEq

/-- One storage cell: JS `null` is `none`, otherwise a record. -/
abbrev Slot (V : Type) := Option (Rcd V)

/-- The backing storage array (Lean index 0 = the JS sentinel slot 0). -/
abbrev Storage (V : Type) := List (Slot V)

variable {V : Type}

/-- Read storage at an index (out of range reads give `none`; the live
region of a well-formed heap never reads out of range). -/
def getSlot (L : Storage V) (i : Nat) : Slot V := L.getD i none

/-- `slot.priority` (reading `.priority` of `null` would throw in JS; that
path is unreachable in the live region and is modelled as `undefined`). -/
def slotPrio : Slot V → Option Int
  | none => none
  | some r => r.priority

/-- `slot.element`. -/
def slotElem : Slot V → Option V
  | none => none
  | some r => r.element

/-- Priority stored at index `i`. -/
def prioAt (L : Storage V) (i : Nat) : Option Int := slotPrio (getSlot L i)

/-- JS `a < b` on number-or-undefined: false when either side is undefined. -/
def jsLt : Option Int → Option Int → Bool
  | some a, some b => a < b
  | _, _ => false

/-- JS `a > b`. -/
def jsGt (a b : Option Int) : Bool := jsLt b a

/-- `MaxHeap._left`. -/
def left (i : Nat) : Nat := 2 * i

/-- `MaxHeap._right`. -/
def right (i : Nat) : Nat := 2 * i + 1

/-- `MaxHeap._parent` (`Math.floor(i / 2)`). -/
def parent (i : Nat) : Nat := i / 2

/-- `MaxHeap._swap`: `temp = s[i]; s[i] = s[j]; s[j] = temp`. -/
def swap (L : Storage V) (i j : Nat) : Storage V :=
  (L.set i (getSlot L j)).set j (getSlot L i)

/-- `MaxHeap._float`, fuel-indexed.  The JS body is
`while (parent(i) && s[i].priority > s[parent(i)].priority) { swap(i, parent(i)); float(parent(i)); }`:
each loop iteration swaps, recurses on the parent, then re-checks the
condition at `i`, which is the second (outer) recursive call below. -/
def floatF : Nat → Storage V → Nat → Storage V
  | 0, L, _ => L
  | f + 1, L, i =>
    if parent i ≠ 0 ∧ jsGt (prioAt L i) (prioAt L (parent i)) then
      floatF f (floatF f (swap L i (parent i)) (parent i)) i
    else L

/-- The `while` condition of `MaxHeap._sink`:
`(left <= count && s[i] < s[left]) || (right <= count && s[i] < s[right])`. -/
def sinkGuard (L : Storage V) (count i : Nat) : Prop :=
  (left i ≤ count ∧ jsLt (prioAt L i) (prioAt L (left i)))
  ∨ (right i ≤ count ∧ jsLt (prioAt L i) (prioAt L (right i)))

instance (L : Storage V) (count i : Nat) : Decidable (sinkGuard L count i) := by
  unfold sinkGuard; infer_instance

/-- `MaxHeap._sink`, fuel-indexed.  The JS body, inside the `while` loop:
if `s[i] < s[left]` swap with the left child and recurse there (note: no
comparison of the two children), else if `s[i] < s[right]` swap with the
right child and recurse there, else `return`; after the inner recursion the
`while` condition is re-checked at `i` (the outer recursive call below). -/
def sinkF : Nat → Storage V → Nat → Nat → Storage V
  | 0, L, _, _ => L
  | f + 1, L, count, i =>
    if sinkGuard L count i then
      if jsLt (prioAt L i) (prioAt L (left i)) then
        sinkF f (sinkF f (swap L i (left i)) count (left i)) count i
      else if jsLt (prioAt L i) (prioAt L (right i)) then
        sinkF f (sinkF f (swap L i (right i)) count (right i)) count i
      else L
    else L

/-- Number of slots of `L` whose priority is (JS-)strictly below `p`. -/
def countLtP (L : Storage V) (p : Option Int) : Nat :=
  L.countP (fun s => jsLt (slotPrio s) p)

/-- Number of slots of `L` whose priority is (JS-)strictly above `p`. -/
def countGtP (L : Storage V) (p : Option Int) : Nat :=
  L.countP (fun s => jsLt p (slotPrio s))

/-- Termination measure for `_float`: strictly decreases along every
recursive call of `floatF` (proved below), hence bounds the recursion. -/
def floatMeas (L : Storage V) (i : Nat) : Nat :=
  i * (L.length + 1) + countLtP L (prioAt L i)

/-- Termination measure for `_sink`. -/
def sinkMeas (L : Storage V) (count i : Nat) : Nat :=
  (count + 1 - i) * (L.length + 1) + countGtP L (prioAt L i)

/-- `MaxHeap._float` proper: run with (provably sufficient) fuel. -/
def float (L : Storage V) (i : Nat) : Storage V :=
  floatF (floatMeas L i + 1) L i

/-- `MaxHeap._sink` proper: run with (provably sufficient) fuel. -/
def sink (L : Storage V) (count i : Nat) : Storage V :=
  sinkF (sinkMeas L count i + 1) L count i

/-- `static DEFAULT_SIZE = 1023`. -/
def DEFAULT_SIZE : Nat := 1023

/-- The heap object: backing storage, `size` (the capacity) and `_count`. -/
structure Heap (V : Type) where
  storage : Storage V
  size : Nat
  count : Nat
deriving DecidableEq

/-- The empty-constructor path: a `null` sentinel at index 0 followed by
`size` dummy records `{priority: undefined, element: undefined}`; `count = 0`. -/
def emptyHeap (V : Type) (size : Nat) : Heap V :=
  ⟨none :: List.replicate size (some ⟨none, none⟩), size, 0⟩

/-- The `for (let i = 1; i <= this.size; i += 1) this._sink(i);` loop of
`_buildheap`, as a structural recursion on the number of remaining
iterations (`n`); `i` is the current loop index. -/
def buildLoop (count : Nat) : Nat → Storage V → Nat → Storage V
  | 0, L, _ => L
  | n + 1, L, i => buildLoop count n (sink L count i) (i + 1)

/-- `MaxHeap._buildheap` (with `count = size`, as set by the constructor). -/
def buildheap (L : Storage V) (size : Nat) : Storage V :=
  buildLoop size size L 1

/-- The from-array constructor path: takes the given array as backing
storage, sets `size = count = length - 1`, runs `_buildheap`. -/
def fromArray (arr : Storage V) : Heap V :=
  ⟨buildheap arr (arr.length - 1), arr.length - 1, arr.length - 1⟩

/-- `MaxHeap.insert`: on success the new record is written at `count + 1`
and floated up; when `count` has reached `size` it throws
`"Heap is already full"` before touching any state. -/
def insert (h : Heap V) (p : Int) (e : Option V) : Except String (Heap V) :=
  if h.count < h.size then
    Except.ok
      ⟨float (h.storage.set (h.count + 1) (some ⟨some p, e⟩)) (h.count + 1),
       h.size, h.count + 1⟩
  else Except.error "Heap is already full"

/-- `MaxHeap.removeMax`: returns the JS return value (`none` = `undefined`)
together with the post-state. -/
def removeMax (h : Heap V) : Option V × Heap V :=
  if h.count = 0 then (none, h)
  else if h.count = 1 then
    (slotElem (getSlot h.storage 1), ⟨h.storage.set 1 none, h.size, 0⟩)
  else
    (slotElem (getSlot (swap h.storage 1 h.count) h.count),
     ⟨sink ((swap h.storage 1 h.count).set h.count none) (h.count - 1) 1,
      h.size, h.count - 1⟩)

/-- `MaxHeap.count`. -/
def countFn (h : Heap V) : Nat := h.count

/-- The `while (this._count > 0)` loop of `MaxHeap.sort`, structural on the
current count: swap root and last, decrement count, sink the root. -/
def sortLoop : Nat → Storage V → Storage V
  | 0, L => L
  | c + 1, L => sortLoop c (sink (swap L 1 (c + 1)) c 1)

/-- `MaxHeap.sort`: returns the (now sorted) backing storage; the heap's
count is driven to 0. -/
def sortHeap (h : Heap V) : Storage V × Heap V :=
  (sortLoop h.count h.storage, ⟨sortLoop h.count h.storage, h.size, 0⟩)

/-- `static heapsort(array)`: build a heap from the array, `sort()` it.  The
model returns the final storage (in JS the caller's array, mutated in
place through shared ownership). -/
def heapsort (arr : Storage V) : Storage V :=
  (sortHeap (fromArray arr)).1

/-- One priority-queue operation, for reasoning about operation sequences. -/
inductive Op (V : Type) where
  | insert (p : Int) (e : Option V)
  | extractMax
deriving DecidableEq

/-- Apply one operation to the heap state.  A failed `insert` (capacity
exceeded) throws before mutating anything, so the state is unchanged. -/
def applyOp (h : Heap V) : Op V → Heap V
  | Op.insert p e =>
    match insert h p e with
    | Except.ok h' => h'
    | Except.error _ => h
  | Op.extractMax => (removeMax h).2

/-- Run a sequence of operations from a starting state. -/
def runOps (h : Heap V) : List (Op V) → Heap V
  | [] => h
  | op :: rest => runOps (applyOp h op) rest

/-- `pLe a b`: whenever both priorities are defined numbers, `a ≤ b`.
(Vacuously true if either side is `undefined`; live heap regions always
hold defined priorities, see `Live` below.) -/
def pLe (a b : Option Int) : Prop :=
  ∀ x y, a = some x → b = some y → x ≤ y

/-- `inSub i j`: index `j` lies in the subtree rooted at index `i`
(i.e. iterating `parent` from `j` reaches `i`). -/
def inSub (i j : Nat) : Prop := ∃ k, j / 2 ^ k = i

/-- All live slots (indices `1..count`) hold records with defined numeric
priorities.  Every state reachable through the public API satisfies this. -/
def Live (L : Storage V) (count : Nat) : Prop :=
  ∀ j, 1 ≤ j → j ≤ count → ∃ p e, getSlot L j = some ⟨some p, e⟩

/-- The heap-order invariant of the spec: for every index `i` with
`1 < i ≤ count`, `storage[parent(i)].priority >= storage[i].priority`. -/
def HeapOrd (L : Storage V) (count : Nat) : Prop :=
  ∀ j, 1 < j → j ≤ count → pLe (prioAt L j) (prioAt L (parent j))

/-- Precondition for `_sink i`: all parent/child pairs whose parent lies in
the subtree of `i` are ordered, except possibly the two pairs whose parent
is `i` itself. -/
def SinkPre (L : Storage V) (count i : Nat) : Prop :=
  ∀ j, 1 < j → j ≤ count → inSub i (parent j) → parent j ≠ i →
    pLe (prioAt L j) (prioAt L (parent j))

/-- Well-formedness of API-reachable heap states: the storage has
`size + 1` slots, the count stays within capacity, the live region holds
real records, and the heap-order invariant holds. -/
def Inv (h : Heap V) : Prop :=
  h.storage.length = h.size + 1 ∧ h.count ≤ h.size ∧
    Live h.storage h.count ∧ HeapOrd h.storage h.count

/-- The live records, storage positions `1..count`, as a list. -/
def liveSeg (L : Storage V) (count : Nat) : List (Slot V) :=
  (L.drop 1).take count

/-- Live records of a heap state. -/
def liveSlots (h : Heap V) : List (Slot V) := liveSeg h.storage h.count

/-- The observable (priority, element) content of a slot. -/
def recOf (s : Slot V) : Option Int × Option V := (slotPrio s, slotElem s)

/-- Insert a list of (priority, element) pairs one by one. -/
def insRun (h : Heap V) : List (Int × Option V) → Heap V
  | [] => h
  | q :: rest => insRun (applyOp h (Op.insert q.1 q.2)) rest

/-- `n` successive `extractMax` calls, recording for each the root priority
at call time together with the returned value. -/
def drainPE : Nat → Heap V → List (Option Int × Option V)
  | 0, _ => []
  | n + 1, h => (prioAt h.storage 1, (removeMax h).1) :: drainPE n (removeMax h).2

/-- The heap state after `n` successive `extractMax` calls. -/
def drainH : Nat → Heap V → Heap V
  | 0, h => h
  | n + 1, h => drainH n (removeMax h).2

/-- A record with a given priority and `undefined` element. -/
def cRec (n : Int) : Slot Unit := some ⟨some n, none⟩

/-- 1-indexed array of six records with priorities `[1, 2, 3, 4, 5, 6]`. -/
def exArr6 : Storage Unit :=
  [none, cRec 1, cRec 2, cRec 3, cRec 4, cRec 5, cRec 6]

/-- The same six records as (priority, element) pairs. -/
def exPairs6 : List (Int × Option Unit) :=
  [(1, none), (2, none), (3, none), (4, none), (5, none), (6, none)]

/-- Three records with priorities `[1, 2, 3]` (for the `_sink` step analysis). -/
def exArr3 : Storage Unit := [none, cRec 1, cRec 2, cRec 3]

/-- The child-selection performed by one iteration of the `_sink` loop body
at state `(L, count, i)`: `some c` means the body swaps the node at `i` with
the child at index `c` and recurses there; `none` means the loop is not
entered (or the dead `return` branch).  Read directly off `_sink`'s branch
structure (`sinkF`); by `sink_eq`, `sink L count i` equals `L` when the
selection is `none` and otherwise recurses after swapping with the selected
child. -/
def sinkChoice (L : Storage V) (count i : Nat) : Option Nat :=
  if sinkGuard L count i then
    if jsLt (prioAt L i) (prioAt L (left i)) then some (left i)
    else if jsLt (prioAt L i) (prioAt L (right i)) then some (right i)
    else none
  else none

/-- Does this operation attempt an insert? -/
def isIns : Op V → Bool
  | Op.insert _ _ => true
  | Op.extractMax => false


/-! ## Theorems -/

/-! ## Order on JS priorities -/

theorem pLe_refl (a : Option Int) : pLe a a := by
  intro x y hx hy; rw [hx] at hy; cases hy; omega

theorem pLe_trans_some {a c : Option Int} (b : Int)
    (h1 : pLe a (some b)) (h2 : pLe (some b) c) : pLe a c := by
  intro x y hx hy
  have := h1 x b hx rfl
  have := h2 b y rfl hy
  omega

theorem pLe_some_mono {a : Option Int} {b c : Int}
    (h1 : pLe a (some b)) (h2 : b ≤ c) : pLe a (some c) := by
  intro x y hx hy
  have := h1 x b hx rfl
  cases hy; omega

theorem jsLt_eq_true_iff {a b : Option Int} :
    jsLt a b = true ↔ ∃ x y, a = some x ∧ b = some y ∧ x < y := by
  cases a with
  | none => simp [jsLt]
  | some x =>
    cases b with
    | none => simp [jsLt]
    | some y => simp [jsLt]

theorem pLe_of_jsLt_eq_false {a b : Option Int} (h : jsLt a b = false) :
    pLe b a := by
  intro x y hx hy
  subst hx; subst hy
  simp [jsLt] at h
  omega

theorem jsLt_eq_false_of_pLe {a : Option Int} {b : Int}
    (h : pLe a (some b)) : jsLt (some b) a = false := by
  cases a with
  | none => simp [jsLt]
  | some x =>
    have := h x b rfl rfl
    simp [jsLt]; omega

theorem pLe_of_jsLt {a b : Option Int} (h : jsLt a b = true) : pLe a b := by
  rcases jsLt_eq_true_iff.1 h with ⟨x, y, hx, hy, hxy⟩
  subst hx; subst hy
  intro u v hu hv; cases hu; cases hv; omega

/-! ## Basic storage lemmas -/

theorem getSlot_eq_getElem {L : Storage V} {i : Nat} (h : i < L.length) :
    getSlot L i = L[i] := by
  simp [getSlot, List.getD_eq_getElem?_getD, List.getElem?_eq_getElem h]

theorem getSlot_eq_none_of_le {L : Storage V} {i : Nat} (h : L.length ≤ i) :
    getSlot L i = none := by
  simp [getSlot, List.getD_eq_getElem?_getD, List.getElem?_eq_none h]

theorem lt_length_of_getSlot_eq_some {L : Storage V} {i : Nat} {r : Rcd V}
    (h : getSlot L i = some r) : i < L.length := by
  by_contra hc
  rw [getSlot_eq_none_of_le (by omega)] at h
  exact Option.noConfusion h

theorem lt_length_of_prioAt_eq_some {L : Storage V} {i : Nat} {p : Int}
    (h : prioAt L i = some p) : i < L.length := by
  unfold prioAt at h
  cases hs : getSlot L i with
  | none => rw [hs] at h; exact absurd h (by simp [slotPrio])
  | some r => exact lt_length_of_getSlot_eq_some hs

theorem getSlot_set (L : Storage V) (i k : Nat) (a : Slot V) :
    getSlot (L.set i a) k = if i = k ∧ i < L.length then a else getSlot L k := by
  simp only [getSlot, List.getD_eq_getElem?_getD, List.getElem?_set]
  by_cases h1 : i = k
  · subst h1
    by_cases h2 : i < L.length
    · simp [h2]
    · simp [h2, List.getElem?_eq_none (by omega : L.length ≤ i)]
  · simp [h1]

theorem length_swap (L : Storage V) (i j : Nat) :
    (swap L i j).length = L.length := by
  simp [swap]

theorem getSlot_swap (L : Storage V) (i j k : Nat)
    (hi : i < L.length) (hj : j < L.length) :
    getSlot (swap L i j) k =
      if j = k then getSlot L i else if i = k then getSlot L j else getSlot L k := by
  unfold swap
  rw [getSlot_set, getSlot_set]
  simp only [List.length_set]
  by_cases h1 : j = k
  · subst h1; simp [hj]
  · by_cases h2 : i = k
    · subst h2; simp [h1, hi]
    · simp [h1, h2]

theorem getSlot_swap_of_ne (L : Storage V) {i j k : Nat}
    (h1 : i ≠ k) (h2 : j ≠ k) : getSlot (swap L i j) k = getSlot L k := by
  unfold swap
  rw [getSlot_set, getSlot_set]
  simp only [List.length_set]
  simp [h1, h2]

/-! ## Counting lemmas: `set` and `swap` permute counted contents -/

theorem countP_set {α : Type} (p : α → Bool) :
    ∀ (L : List α) (n : Nat) (b : α), (h : n < L.length) →
    (L.set n b).countP p + (if p L[n] then 1 else 0)
      = L.countP p + (if p b then 1 else 0) := by
  intro L
  induction L with
  | nil => intro n b h; simp at h
  | cons x xs ih =>
    intro n b h
    cases n with
    | zero =>
      simp only [List.set_cons_zero, List.countP_cons, List.getElem_cons_zero]
      omega
    | succ n =>
      have hn : n < xs.length := by simpa using h
      have := ih n b hn
      simp only [List.set_cons_succ, List.countP_cons, List.getElem_cons_succ]
      omega

theorem swap_countP (p : Slot V → Bool) (L : Storage V) {i j : Nat}
    (hi : i < L.length) (hj : j < L.length) :
    (swap L i j).countP p = L.countP p := by
  unfold swap
  have hj' : j < (L.set i (getSlot L j)).length := by simpa using hj
  have h1 := countP_set p (L.set i (getSlot L j)) j (getSlot L i) hj'
  have h2 := countP_set p L i (getSlot L j) hi
  have e1 : (L.set i (getSlot L j))[j] = if i = j ∧ i < L.length then getSlot L j else getSlot L j := by
    rw [← getSlot_eq_getElem hj', getSlot_set]
  have e2 : (L.set i (getSlot L j))[j] = getSlot L j := by
    rw [e1]; split <;> rfl
  rw [e2] at h1
  rw [← getSlot_eq_getElem hi] at h2
  omega

/-- Replacing the element at position `m` and consing the old one on the
front is a permutation of consing the new element on the front. -/
theorem replace_perm {α : Type} (d : α) :
    ∀ (l : List α) (m : Nat) (x : α), m < l.length →
    ((l.getD m d) :: l.set m x).Perm (x :: l) := by
  intro l
  induction l with
  | nil => intro m x h; simp at h
  | cons y ys ih =>
    intro m x h
    cases m with
    | zero =>
      simpa using List.Perm.swap x y ys
    | succ m =>
      have hm : m < ys.length := by simpa using h
      simp only [List.getD_cons_succ, List.set_cons_succ]
      exact ((List.Perm.swap y (ys.getD m d) (ys.set m x)).trans
        ((ih m x hm).cons y)).trans (List.Perm.swap x y ys)

theorem set_set_perm {α : Type} (d : α) :
    ∀ (L : List α) (i j : Nat), i < L.length → j < L.length →
    ((L.set i (L.getD j d)).set j (L.getD i d)).Perm L := by
  intro L
  induction L with
  | nil => intro i j h _; simp at h
  | cons x xs ih =>
    intro i j hi hj
    cases i with
    | zero =>
      cases j with
      | zero => simp
      | succ j =>
        have hj' : j < xs.length := by simpa using hj
        simp only [List.getD_cons_succ, List.getD_cons_zero, List.set_cons_zero,
          List.set_cons_succ]
        exact replace_perm d xs j x hj'
    | succ i =>
      have hi' : i < xs.length := by simpa using hi
      cases j with
      | zero =>
        simp only [List.getD_cons_succ, List.getD_cons_zero, List.set_cons_zero,
          List.set_cons_succ]
        exact replace_perm d xs i x hi'
      | succ j =>
        have hj' : j < xs.length := by simpa using hj
        simp only [List.getD_cons_succ, List.set_cons_succ]
        exact (ih i j hi' hj').cons x

theorem swap_perm (L : Storage V) {i j : Nat}
    (hi : i < L.length) (hj : j < L.length) : (swap L i j).Perm L :=
  set_set_perm none L i j hi hj

/-- Strict `countP` comparison: if `q` is implied by `p` on members of `L`
and some member satisfies `q` but not `p`, then `p` counts strictly fewer. -/
theorem countP_lt_countP {α : Type} {p q : α → Bool} {L : List α}
    (hmono : ∀ y ∈ L, p y = true → q y = true)
    {x : α} (hx : x ∈ L) (hq : q x = true) (hp : p x = false) :
    L.countP p < L.countP q := by
  rcases List.append_of_mem hx with ⟨s, t, rfl⟩
  have hs : s.countP p ≤ s.countP q :=
    List.countP_mono_left (fun y hy => hmono y (by simp [hy]))
  have ht : t.countP p ≤ t.countP q :=
    List.countP_mono_left (fun y hy => hmono y (by simp [hy]))
  simp [List.countP_append, List.countP_cons, hp, hq]
  omega

/-! ## `floatF`: basic preservation lemmas -/

theorem parent_lt {i : Nat} (h : parent i ≠ 0) : parent i < i := by
  unfold parent at h ⊢
  omega

theorem two_le_of_parent_ne_zero {i : Nat} (h : parent i ≠ 0) : 2 ≤ i := by
  unfold parent at h
  omega

theorem floatF_length : ∀ (f : Nat) (L : Storage V) (i : Nat),
    (floatF f L i).length = L.length := by
  intro f
  induction f with
  | zero => intro L i; rfl
  | succ f ih =>
    intro L i
    simp only [floatF]
    split
    · rw [ih, ih, length_swap]
    · rfl

theorem floatF_untouched : ∀ (f : Nat) (L : Storage V) (i j : Nat),
    (j = 0 ∨ i < j) → getSlot (floatF f L i) j = getSlot L j := by
  intro f
  induction f with
  | zero => intro L i j _; rfl
  | succ f ih =>
    intro L i j hj
    simp only [floatF]
    split
    · rename_i hg
      have hp := parent_lt hg.1
      have hi2 := two_le_of_parent_ne_zero hg.1
      rw [ih _ i j hj, ih _ (parent i) j (by omega), getSlot_swap_of_ne]
      · omega
      · omega
    · rfl

theorem floatF_in_range {L : Storage V} {i : Nat}
    (hg : parent i ≠ 0 ∧ jsGt (prioAt L i) (prioAt L (parent i)) = true) :
    i < L.length ∧ parent i < L.length := by
  rcases jsLt_eq_true_iff.1 hg.2 with ⟨x, y, hx, hy, _⟩
  exact ⟨lt_length_of_prioAt_eq_some hy, lt_length_of_prioAt_eq_some hx⟩

theorem floatF_countP : ∀ (f : Nat) (L : Storage V) (i : Nat) (p : Slot V → Bool),
    (floatF f L i).countP p = L.countP p := by
  intro f
  induction f with
  | zero => intro L i p; rfl
  | succ f ih =>
    intro L i p
    simp only [floatF]
    split
    · rename_i hg
      rcases floatF_in_range hg with ⟨h1, h2⟩
      rw [ih, ih, swap_countP _ _ h1 h2]
    · rfl

/-- Every live position of the result of `floatF` holds a slot that was
already present at some live position (`1 ≤ k ≤ c`) of the input: `_float`
only moves slots around inside `[1, i] ⊆ [1, c]`. -/
theorem floatF_mapsTo : ∀ (f : Nat) (L : Storage V) (i : Nat) (c : Nat), i ≤ c →
    ∀ j, 1 ≤ j → j ≤ c →
    ∃ k, 1 ≤ k ∧ k ≤ c ∧ getSlot (floatF f L i) j = getSlot L k := by
  intro f
  induction f with
  | zero => intro L i c _ j hj1 hj2; exact ⟨j, hj1, hj2, rfl⟩
  | succ f ih =>
    intro L i c hic j hj1 hj2
    simp only [floatF]
    split
    · rename_i hg
      have hp := parent_lt hg.1
      have hp1 : 1 ≤ parent i := Nat.pos_of_ne_zero hg.1
      have hi2 := two_le_of_parent_ne_zero hg.1
      rcases ih (floatF f (swap L i (parent i)) (parent i)) i c hic j hj1 hj2 with
        ⟨k1, hk11, hk12, e1⟩
      rcases ih (swap L i (parent i)) (parent i) c (by omega) k1 hk11 hk12 with
        ⟨k2, hk21, hk22, e2⟩
      rcases floatF_in_range hg with ⟨hL1, hL2⟩
      rw [e1, e2, getSlot_swap L i (parent i) k2 hL1 hL2]
      by_cases h1 : parent i = k2
      · exact ⟨i, by omega, by omega, by rw [if_pos h1]⟩
      · by_cases h2 : i = k2
        · exact ⟨parent i, by omega, by omega, by rw [if_neg h1, if_pos h2]⟩
        · exact ⟨k2, hk21, hk22, by rw [if_neg h1, if_neg h2]⟩
    · exact ⟨j, hj1, hj2, rfl⟩

/-! ## `floatF`: the measure decreases along every recursive call, hence
the fuelled computation is stable once the fuel exceeds `floatMeas`. -/

theorem float_meas_nested {L : Storage V} {i : Nat}
    (hg : parent i ≠ 0 ∧ jsGt (prioAt L i) (prioAt L (parent i)) = true) :
    floatMeas (swap L i (parent i)) (parent i) < floatMeas L i := by
  have hp := parent_lt hg.1
  have hlen : (swap L i (parent i)).length = L.length := length_swap L i (parent i)
  have hc : countLtP (swap L i (parent i))
      (prioAt (swap L i (parent i)) (parent i)) ≤ L.length := by
    have := List.countP_le_length
      (l := swap L i (parent i))
      (p := fun s => jsLt (slotPrio s) (prioAt (swap L i (parent i)) (parent i)))
    rw [hlen] at this
    exact this
  unfold floatMeas
  rw [hlen]
  have h1 : parent i * (L.length + 1) ≤ (i - 1) * (L.length + 1) :=
    Nat.mul_le_mul_right _ (by omega)
  have h2 : (i - 1) * (L.length + 1) + (L.length + 1) = i * (L.length + 1) := by
    have : i - 1 + 1 = i := by omega
    rw [← Nat.succ_mul, Nat.succ_eq_add_one, this]
  omega

theorem float_meas_cont (f : Nat) {L : Storage V} {i : Nat}
    (hg : parent i ≠ 0 ∧ jsGt (prioAt L i) (prioAt L (parent i)) = true) :
    floatMeas (floatF f (swap L i (parent i)) (parent i)) i < floatMeas L i := by
  have hp := parent_lt hg.1
  rcases floatF_in_range hg with ⟨hiL, hpL⟩
  rcases jsLt_eq_true_iff.1 hg.2 with ⟨b, a, hb, ha, hba⟩
  have hlen : (floatF f (swap L i (parent i)) (parent i)).length = L.length := by
    rw [floatF_length, length_swap]
  have hprio : prioAt (floatF f (swap L i (parent i)) (parent i)) i = some b := by
    unfold prioAt
    rw [floatF_untouched _ _ _ _ (Or.inr hp),
      getSlot_swap L i (parent i) i hiL hpL]
    rw [if_neg (by omega), if_pos rfl]
    exact hb
  have hcnt : ∀ x, countLtP (floatF f (swap L i (parent i)) (parent i)) x
      = countLtP L x := by
    intro x
    unfold countLtP
    rw [floatF_countP, swap_countP _ _ hiL hpL]
  have hstrict : countLtP L (some b) < countLtP L (some a) := by
    apply countP_lt_countP (x := getSlot L (parent i))
    · intro y _ hy
      rcases jsLt_eq_true_iff.1 hy with ⟨u, v, hu, hv, huv⟩
      cases hv
      rw [jsLt_eq_true_iff]
      exact ⟨u, a, hu, rfl, by omega⟩
    · rw [getSlot_eq_getElem hpL]
      exact List.getElem_mem hpL
    · show jsLt (slotPrio (getSlot L (parent i))) (some a) = true
      have : slotPrio (getSlot L (parent i)) = some b := hb
      rw [this, jsLt_eq_true_iff]
      exact ⟨b, a, rfl, rfl, hba⟩
    · show jsLt (slotPrio (getSlot L (parent i))) (some b) = false
      have : slotPrio (getSlot L (parent i)) = some b := hb
      rw [this]
      simp [jsLt]
  unfold floatMeas
  rw [hlen, hprio, ha, hcnt]
  omega

theorem floatF_stable : ∀ (n : Nat) (L : Storage V) (i F G : Nat),
    floatMeas L i ≤ n → floatMeas L i < F → floatMeas L i < G →
    floatF F L i = floatF G L i := by
  intro n
  induction n using Nat.strong_induction_on with
  | _ n ih =>
    intro L i F G hn hF hG
    match F, G with
    | F + 1, G + 1 =>
      simp only [floatF]
      split
      · rename_i hg
        have hg' : parent i ≠ 0 ∧ jsGt (prioAt L i) (prioAt L (parent i)) = true := hg
        have d1 := float_meas_nested hg'
        have e1 : floatF F (swap L i (parent i)) (parent i)
            = floatF G (swap L i (parent i)) (parent i) := by
          apply ih (floatMeas (swap L i (parent i)) (parent i)) (by omega) _ _ F G
            (le_refl _) (by omega) (by omega)
        rw [e1]
        have d2 := float_meas_cont G hg'
        apply ih (floatMeas (floatF G (swap L i (parent i)) (parent i)) i) (by omega)
          _ _ F G (le_refl _) (by omega) (by omega)
      · rfl

/-- The literal recursion satisfied by `MaxHeap._float`.  This is the
fixed-point/termination result: `float` (run with fuel `floatMeas + 1`)
satisfies the JS loop equation, so the JS recursion terminates with this
value on every input. -/
theorem float_eq (L : Storage V) (i : Nat) :
    float L i =
      if parent i ≠ 0 ∧ jsGt (prioAt L i) (prioAt L (parent i)) = true then
        float (float (swap L i (parent i)) (parent i)) i
      else L := by
  unfold float
  conv_lhs => rw [show floatMeas L i + 1 = floatMeas L i + 1 from rfl]
  simp only [floatF]
  split
  · rename_i hg
    have hg' : parent i ≠ 0 ∧ jsGt (prioAt L i) (prioAt L (parent i)) = true := hg
    have d1 := float_meas_nested hg'
    have e1 : floatF (floatMeas L i) (swap L i (parent i)) (parent i)
        = floatF (floatMeas (swap L i (parent i)) (parent i) + 1)
            (swap L i (parent i)) (parent i) :=
      floatF_stable (floatMeas (swap L i (parent i)) (parent i))
        (swap L i (parent i)) (parent i) (floatMeas L i)
        (floatMeas (swap L i (parent i)) (parent i) + 1)
        (le_refl _) (by omega) (by omega)
    rw [e1]
    have d2 := float_meas_cont
      (floatMeas (swap L i (parent i)) (parent i) + 1) hg'
    exact floatF_stable
      (floatMeas (floatF (floatMeas (swap L i (parent i)) (parent i) + 1)
        (swap L i (parent i)) (parent i)) i)
      (floatF (floatMeas (swap L i (parent i)) (parent i) + 1)
        (swap L i (parent i)) (parent i)) i (floatMeas L i)
      (floatMeas (floatF (floatMeas (swap L i (parent i)) (parent i) + 1)
        (swap L i (parent i)) (parent i)) i + 1)
      (le_refl _) (by omega) (by omega)
  · rfl

theorem float_length (L : Storage V) (i : Nat) : (float L i).length = L.length :=
  floatF_length _ L i

theorem float_untouched (L : Storage V) (i j : Nat) (h : j = 0 ∨ i < j) :
    getSlot (float L i) j = getSlot L j :=
  floatF_untouched _ L i j h

theorem float_countP (L : Storage V) (i : Nat) (p : Slot V → Bool) :
    (float L i).countP p = L.countP p :=
  floatF_countP _ L i p

theorem float_mapsTo (L : Storage V) (i c : Nat) (hic : i ≤ c)
    (j : Nat) (hj1 : 1 ≤ j) (hj2 : j ≤ c) :
    ∃ k, 1 ≤ k ∧ k ≤ c ∧ getSlot (float L i) j = getSlot L k :=
  floatF_mapsTo _ L i c hic j hj1 hj2

/-! ## Subtree membership in the implicit binary tree -/

theorem inSub_self (i : Nat) : inSub i i := ⟨0, by simp⟩

theorem inSub_le {i j : Nat} (h : inSub i j) : i ≤ j := by
  rcases h with ⟨k, hk⟩
  rw [← hk]
  exact Nat.div_le_self _ _

theorem not_inSub_of_lt {i j : Nat} (h : j < i) : ¬ inSub i j :=
  fun hs => absurd (inSub_le hs) (by omega)

theorem inSub_of_parent {i j : Nat} (h : inSub i (j / 2)) : inSub i j := by
  rcases h with ⟨k, hk⟩
  refine ⟨k + 1, ?_⟩
  rw [pow_succ, Nat.mul_comm, ← Nat.div_div_eq_div_mul]
  exact hk

theorem inSub_parent_of_ne {i j : Nat} (h : inSub i j) (hne : j ≠ i) :
    inSub i (j / 2) := by
  rcases h with ⟨k, hk⟩
  cases k with
  | zero => exact absurd (by simpa using hk) hne
  | succ k =>
    refine ⟨k, ?_⟩
    rw [← hk, pow_succ, Nat.mul_comm, ← Nat.div_div_eq_div_mul]

theorem inSub_left (i : Nat) : inSub i (left i) := by
  refine ⟨1, ?_⟩
  simp [left, Nat.mul_div_cancel_left]

theorem inSub_right (i : Nat) : inSub i (right i) := by
  refine ⟨1, ?_⟩
  simp [right, pow_one]
  omega

theorem inSub_trans {a b c : Nat} (h1 : inSub a b) (h2 : inSub b c) :
    inSub a c := by
  rcases h1 with ⟨k1, hk1⟩
  rcases h2 with ⟨k2, hk2⟩
  refine ⟨k2 + k1, ?_⟩
  rw [pow_add, ← Nat.div_div_eq_div_mul, hk2, hk1]

/-- Ancestors of a common index are comparable. -/
theorem inSub_comparable : ∀ (j a b : Nat), inSub a j → inSub b j →
    inSub a b ∨ inSub b a := by
  intro j
  induction j using Nat.strong_induction_on with
  | _ j ih =>
    intro a b ha hb
    by_cases hja : j = a
    · subst hja
      exact Or.inr hb
    · by_cases hjb : j = b
      · subst hjb
        exact Or.inl ha
      · have ha' := inSub_parent_of_ne ha hja
        have hb' := inSub_parent_of_ne hb hjb
        have hj1 : 1 ≤ j := by
          by_contra hc
          have hj0 : j = 0 := by omega
          subst hj0
          have : a = 0 := by
            have := inSub_le ha; omega
          exact hja (by omega)
        exact ih (j / 2) (by omega) a b ha' hb'

/-- A strict member of the subtree at `i` is in the subtree of one of the
two children of `i`. -/
theorem inSub_child_of_ne {i j : Nat} (h : inSub i j) (hne : j ≠ i) :
    inSub (left i) j ∨ inSub (right i) j := by
  induction j using Nat.strong_induction_on with
  | _ j ih =>
    have hij := inSub_le h
    have hj1 : 1 ≤ j := by
      rcases Nat.eq_zero_or_pos j with h0 | h1
      · subst h0
        have : i = 0 := by omega
        exact absurd (by omega) hne
      · exact h1
    have hpar := inSub_parent_of_ne h hne
    by_cases hp : j / 2 = i
    · have : j = left i ∨ j = right i := by
        unfold left right
        omega
      rcases this with h' | h'
      · exact Or.inl (h' ▸ inSub_self _)
      · exact Or.inr (h' ▸ inSub_self _)
    · have hlt : j / 2 < j := by omega
      rcases ih (j / 2) hlt hpar hp with h' | h'
      · exact Or.inl (inSub_of_parent h')
      · exact Or.inr (inSub_of_parent h')

theorem not_inSub_left_right {i : Nat} (hi : 1 ≤ i) :
    ¬ inSub (left i) (right i) ∧ ¬ inSub (right i) (left i) := by
  constructor
  · intro h
    have hne : right i ≠ left i := by unfold left right; omega
    have := inSub_parent_of_ne h hne
    have hpr : right i / 2 = i := by unfold right; omega
    rw [hpr] at this
    have := inSub_le this
    unfold left at this
    omega
  · intro h
    have := inSub_le h
    unfold left right at this
    omega

/-! ## `sinkF`: guard analysis and preservation lemmas -/

theorem jsLt_irrefl (a : Option Int) : jsLt a a = false := by
  cases a with
  | none => rfl
  | some x => simp [jsLt]

theorem sinkGuard_left_le {L : Storage V} {count i : Nat}
    (hg : sinkGuard L count i) : left i ≤ count := by
  rcases hg with ⟨h, _⟩ | ⟨h, _⟩
  · exact h
  · unfold left
    unfold right at h
    omega

/-- Facts available in the first (`swap` with the left child) branch of
`_sink`'s loop body. -/
theorem sink_branch1_facts {L : Storage V} {count i : Nat}
    (hg : sinkGuard L count i)
    (hb : jsLt (prioAt L i) (prioAt L (left i)) = true) :
    1 ≤ i ∧ i < left i ∧ left i ≤ count ∧ i < L.length ∧ left i < L.length := by
  have hle := sinkGuard_left_le hg
  have hi : 1 ≤ i := by
    by_contra hc
    have h0 : i = 0 := by omega
    subst h0
    rw [show left 0 = 0 from rfl, jsLt_irrefl] at hb
    exact Bool.noConfusion hb
  rcases jsLt_eq_true_iff.1 hb with ⟨a, b, ha, hbb, _⟩
  exact ⟨hi, by unfold left; omega, hle,
    lt_length_of_prioAt_eq_some ha, lt_length_of_prioAt_eq_some hbb⟩

/-- Facts available in the second (`swap` with the right child) branch. -/
theorem sink_branch2_facts {L : Storage V} {count i : Nat}
    (hg : sinkGuard L count i)
    (hb1 : jsLt (prioAt L i) (prioAt L (left i)) = false)
    (hb2 : jsLt (prioAt L i) (prioAt L (right i)) = true) :
    i < right i ∧ right i ≤ count ∧ i < L.length ∧ right i < L.length := by
  have hrc : right i ≤ count := by
    rcases hg with ⟨_, h⟩ | ⟨h, _⟩
    · rw [hb1] at h
      exact Bool.noConfusion h
    · exact h
  rcases jsLt_eq_true_iff.1 hb2 with ⟨a, b, ha, hbb, _⟩
  exact ⟨by unfold right; omega, hrc,
    lt_length_of_prioAt_eq_some ha, lt_length_of_prioAt_eq_some hbb⟩

theorem sinkF_length : ∀ (f : Nat) (L : Storage V) (count i : Nat),
    (sinkF f L count i).length = L.length := by
  intro f
  induction f with
  | zero => intro L count i; rfl
  | succ f ih =>
    intro L count i
    simp only [sinkF]
    split
    · split
      · rw [ih, ih, length_swap]
      · split
        · rw [ih, ih, length_swap]
        · rfl
    · rfl

theorem sinkF_untouched : ∀ (f : Nat) (L : Storage V) (count i j : Nat),
    1 ≤ i → (j = 0 ∨ count < j ∨ ¬ inSub i j) →
    getSlot (sinkF f L count i) j = getSlot L j := by
  intro f
  induction f with
  | zero => intro L count i j _ _; rfl
  | succ f ih =>
    intro L count i j hi hj
    simp only [sinkF]
    split
    · rename_i hg
      have hg' : sinkGuard L count i := hg
      split
      · rename_i hb
        rcases sink_branch1_facts hg' hb with ⟨hi1, hil, hlc, hiL, hlL⟩
        have hcond : j = 0 ∨ count < j ∨ ¬ inSub (left i) j := by
          rcases hj with h | h | h
          · exact Or.inl h
          · exact Or.inr (Or.inl h)
          · exact Or.inr (Or.inr fun hs => h (inSub_trans (inSub_left i) hs))
        have hne1 : i ≠ j := by
          rcases hj with h | h | h
          · omega
          · omega
          · intro he; refine h ?_; rw [← he]; exact inSub_self i
        have hne2 : left i ≠ j := by
          rcases hj with h | h | h
          · omega
          · omega
          · intro he; refine h ?_; rw [← he]; exact inSub_left i
        rw [ih _ count i j hi hj, ih _ count (left i) j (by omega) hcond,
          getSlot_swap_of_ne _ hne1 hne2]
      · split
        · rename_i hb1 hb2
          rcases sink_branch2_facts hg' (Bool.of_not_eq_true hb1) hb2 with
            ⟨hir, hrc, hiL, hrL⟩
          have hcond : j = 0 ∨ count < j ∨ ¬ inSub (right i) j := by
            rcases hj with h | h | h
            · exact Or.inl h
            · exact Or.inr (Or.inl h)
            · exact Or.inr (Or.inr fun hs => h (inSub_trans (inSub_right i) hs))
          have hne1 : i ≠ j := by
            rcases hj with h | h | h
            · omega
            · omega
            · intro he; refine h ?_; rw [← he]; exact inSub_self i
          have hne2 : right i ≠ j := by
            rcases hj with h | h | h
            · omega
            · omega
            · intro he; refine h ?_; rw [← he]; exact inSub_right i
          rw [ih _ count i j hi hj, ih _ count (right i) j (by omega) hcond,
            getSlot_swap_of_ne _ hne1 hne2]
        · rfl
    · rfl

theorem sinkF_countP : ∀ (f : Nat) (L : Storage V) (count i : Nat)
    (p : Slot V → Bool), (sinkF f L count i).countP p = L.countP p := by
  intro f
  induction f with
  | zero => intro L count i p; rfl
  | succ f ih =>
    intro L count i p
    simp only [sinkF]
    split
    · rename_i hg
      have hg' : sinkGuard L count i := hg
      split
      · rename_i hb
        rcases sink_branch1_facts hg' hb with ⟨_, _, _, hiL, hlL⟩
        rw [ih, ih, swap_countP _ _ hiL hlL]
      · split
        · rename_i hb1 hb2
          rcases sink_branch2_facts hg' (Bool.of_not_eq_true hb1) hb2 with
            ⟨_, _, hiL, hrL⟩
          rw [ih, ih, swap_countP _ _ hiL hrL]
        · rfl
    · rfl

/-- Every live position of a `sinkF` result holds a slot present at some
live position of the input: `_sink` permutes the region `[1, count]`. -/
theorem sinkF_mapsTo : ∀ (f : Nat) (L : Storage V) (count i : Nat), 1 ≤ i →
    ∀ j, 1 ≤ j → j ≤ count →
    ∃ k, 1 ≤ k ∧ k ≤ count ∧ getSlot (sinkF f L count i) j = getSlot L k := by
  intro f
  induction f with
  | zero => intro L count i _ j hj1 hj2; exact ⟨j, hj1, hj2, rfl⟩
  | succ f ih =>
    intro L count i hi j hj1 hj2
    simp only [sinkF]
    split
    · rename_i hg
      have hg' : sinkGuard L count i := hg
      split
      · rename_i hb
        rcases sink_branch1_facts hg' hb with ⟨hi1, hil, hlc, hiL, hlL⟩
        rcases ih (sinkF f (swap L i (left i)) count (left i)) count i hi j hj1 hj2
          with ⟨k1, hk11, hk12, e1⟩
        rcases ih (swap L i (left i)) count (left i) (by omega) k1 hk11 hk12
          with ⟨k2, hk21, hk22, e2⟩
        rw [e1, e2, getSlot_swap L i (left i) k2 hiL hlL]
        by_cases h1 : left i = k2
        · exact ⟨i, by omega, by omega, by rw [if_pos h1]⟩
        · by_cases h2 : i = k2
          · exact ⟨left i, by omega, by omega, by rw [if_neg h1, if_pos h2]⟩
          · exact ⟨k2, hk21, hk22, by rw [if_neg h1, if_neg h2]⟩
      · split
        · rename_i hb1 hb2
          rcases sink_branch2_facts hg' (Bool.of_not_eq_true hb1) hb2 with
            ⟨hir, hrc, hiL, hrL⟩
          rcases ih (sinkF f (swap L i (right i)) count (right i)) count i hi j hj1 hj2
            with ⟨k1, hk11, hk12, e1⟩
          rcases ih (swap L i (right i)) count (right i) (by omega) k1 hk11 hk12
            with ⟨k2, hk21, hk22, e2⟩
          rw [e1, e2, getSlot_swap L i (right i) k2 hiL hrL]
          by_cases h1 : right i = k2
          · exact ⟨i, by omega, by omega, by rw [if_pos h1]⟩
          · by_cases h2 : i = k2
            · exact ⟨right i, by omega, by omega, by rw [if_neg h1, if_pos h2]⟩
            · exact ⟨k2, hk21, hk22, by rw [if_neg h1, if_neg h2]⟩
        · exact ⟨j, hj1, hj2, rfl⟩
    · exact ⟨j, hj1, hj2, rfl⟩

/-! ## `sinkF`: measure decrease and stability -/

theorem sink_meas_nested (L : Storage V) (count : Nat) {i : Nat} (c : Nat)
    (hic : i < c) (hcc : c ≤ count) :
    sinkMeas (swap L i c) count c < sinkMeas L count i := by
  have hlen := length_swap L i c
  have hcnt : countGtP (swap L i c) (prioAt (swap L i c) c) ≤ L.length := by
    have := List.countP_le_length
      (l := swap L i c)
      (p := fun s => jsLt (prioAt (swap L i c) c) (slotPrio s))
    rw [hlen] at this
    exact this
  unfold sinkMeas
  rw [hlen]
  have h1 : (count + 1 - c) * (L.length + 1) ≤ (count - i) * (L.length + 1) :=
    Nat.mul_le_mul_right _ (by omega)
  have h2 : (count - i) * (L.length + 1) + (L.length + 1)
      = (count + 1 - i) * (L.length + 1) := by
    have : count - i + 1 = count + 1 - i := by omega
    rw [← Nat.succ_mul, Nat.succ_eq_add_one, this]
  omega

theorem sink_meas_cont (f : Nat) (L : Storage V) (count : Nat) {i : Nat} (c : Nat)
    (hic : i < c) (hlt : jsLt (prioAt L i) (prioAt L c) = true) :
    sinkMeas (sinkF f (swap L i c) count c) count i < sinkMeas L count i := by
  rcases jsLt_eq_true_iff.1 hlt with ⟨a, b, ha, hb, hab⟩
  have hiL := lt_length_of_prioAt_eq_some ha
  have hcL := lt_length_of_prioAt_eq_some hb
  have hlen : (sinkF f (swap L i c) count c).length = L.length := by
    rw [sinkF_length, length_swap]
  have hprio : prioAt (sinkF f (swap L i c) count c) i = some b := by
    unfold prioAt
    rw [sinkF_untouched f _ count c i (by omega)
      (Or.inr (Or.inr (not_inSub_of_lt hic)))]
    rw [getSlot_swap L i c i hiL hcL, if_neg (by omega : ¬ c = i), if_pos rfl]
    exact hb
  have hcnt : ∀ x, countGtP (sinkF f (swap L i c) count c) x = countGtP L x := by
    intro x
    unfold countGtP
    rw [sinkF_countP, swap_countP _ _ hiL hcL]
  have hstrict : countGtP L (some b) < countGtP L (some a) := by
    apply countP_lt_countP (x := getSlot L c)
    · intro y _ hy
      rcases jsLt_eq_true_iff.1 hy with ⟨u, v, hu, hv, huv⟩
      cases hu
      rw [jsLt_eq_true_iff]
      exact ⟨a, v, rfl, hv, by omega⟩
    · rw [getSlot_eq_getElem hcL]
      exact List.getElem_mem hcL
    · show jsLt (some a) (slotPrio (getSlot L c)) = true
      have hc' : slotPrio (getSlot L c) = some b := hb
      rw [hc', jsLt_eq_true_iff]
      exact ⟨a, b, rfl, rfl, hab⟩
    · show jsLt (some b) (slotPrio (getSlot L c)) = false
      have hc' : slotPrio (getSlot L c) = some b := hb
      rw [hc']
      exact jsLt_irrefl (some b)
  unfold sinkMeas
  rw [hlen, hprio, ha, hcnt]
  omega

theorem sinkF_stable : ∀ (n : Nat) (L : Storage V) (count i F G : Nat),
    sinkMeas L count i ≤ n → sinkMeas L count i < F → sinkMeas L count i < G →
    sinkF F L count i = sinkF G L count i := by
  intro n
  induction n using Nat.strong_induction_on with
  | _ n ih =>
    intro L count i F G hn hF hG
    match F, G with
    | F + 1, G + 1 =>
      simp only [sinkF]
      split
      · rename_i hg
        have hg' : sinkGuard L count i := hg
        split
        · rename_i hb
          rcases sink_branch1_facts hg' hb with ⟨hi1, hil, hlc, _, _⟩
          have d1 := sink_meas_nested L count (left i) hil hlc
          have e1 : sinkF F (swap L i (left i)) count (left i)
              = sinkF G (swap L i (left i)) count (left i) :=
            ih (sinkMeas (swap L i (left i)) count (left i)) (by omega)
              _ _ _ F G (le_refl _) (by omega) (by omega)
          rw [e1]
          have d2 := sink_meas_cont G L count (left i) hil hb
          exact ih (sinkMeas (sinkF G (swap L i (left i)) count (left i)) count i)
            (by omega) _ _ _ F G (le_refl _) (by omega) (by omega)
        · split
          · rename_i hb1 hb2
            rcases sink_branch2_facts hg' (Bool.of_not_eq_true hb1) hb2 with
              ⟨hir, hrc, _, _⟩
            have d1 := sink_meas_nested L count (right i) hir hrc
            have e1 : sinkF F (swap L i (right i)) count (right i)
                = sinkF G (swap L i (right i)) count (right i) :=
              ih (sinkMeas (swap L i (right i)) count (right i)) (by omega)
                _ _ _ F G (le_refl _) (by omega) (by omega)
            rw [e1]
            have d2 := sink_meas_cont G L count (right i) hir hb2
            exact ih (sinkMeas (sinkF G (swap L i (right i)) count (right i)) count i)
              (by omega) _ _ _ F G (le_refl _) (by omega) (by omega)
          · rfl
      · rfl

/-- The literal recursion satisfied by `MaxHeap._sink`: the JS loop
terminates on every state and `sink` computes its value. -/
theorem sink_eq (L : Storage V) (count i : Nat) :
    sink L count i =
      if sinkGuard L count i then
        if jsLt (prioAt L i) (prioAt L (left i)) = true then
          sink (sink (swap L i (left i)) count (left i)) count i
        else if jsLt (prioAt L i) (prioAt L (right i)) = true then
          sink (sink (swap L i (right i)) count (right i)) count i
        else L
      else L := by
  by_cases hg : sinkGuard L count i
  · rw [if_pos hg]
    by_cases hb : jsLt (prioAt L i) (prioAt L (left i)) = true
    · rw [if_pos hb]
      rcases sink_branch1_facts hg hb with ⟨hi1, hil, hlc, _, _⟩
      have d1 := sink_meas_nested L count (left i) hil hlc
      have hstep : sink L count i
          = sinkF (sinkMeas L count i)
              (sinkF (sinkMeas L count i) (swap L i (left i)) count (left i))
              count i := by
        unfold sink
        simp only [sinkF]
        rw [if_pos hg, if_pos hb]
      rw [hstep]
      have e1 : sinkF (sinkMeas L count i) (swap L i (left i)) count (left i)
          = sink (swap L i (left i)) count (left i) :=
        sinkF_stable (sinkMeas (swap L i (left i)) count (left i))
          (swap L i (left i)) count (left i) (sinkMeas L count i)
          (sinkMeas (swap L i (left i)) count (left i) + 1)
          (le_refl _) (by omega) (by omega)
      rw [e1]
      have d2 : sinkMeas (sink (swap L i (left i)) count (left i)) count i
          < sinkMeas L count i :=
        sink_meas_cont (sinkMeas (swap L i (left i)) count (left i) + 1)
          L count (left i) hil hb
      show _ = sinkF (sinkMeas (sink (swap L i (left i)) count (left i)) count i + 1)
        (sink (swap L i (left i)) count (left i)) count i
      exact sinkF_stable (sinkMeas (sink (swap L i (left i)) count (left i)) count i)
        (sink (swap L i (left i)) count (left i)) count i (sinkMeas L count i)
        (sinkMeas (sink (swap L i (left i)) count (left i)) count i + 1)
        (le_refl _) (by omega) (by omega)
    · rw [if_neg hb]
      by_cases hb2 : jsLt (prioAt L i) (prioAt L (right i)) = true
      · rw [if_pos hb2]
        rcases sink_branch2_facts hg (Bool.of_not_eq_true hb) hb2 with
          ⟨hir, hrc, _, _⟩
        have d1 := sink_meas_nested L count (right i) hir hrc
        have hstep : sink L count i
            = sinkF (sinkMeas L count i)
                (sinkF (sinkMeas L count i) (swap L i (right i)) count (right i))
                count i := by
          unfold sink
          simp only [sinkF]
          rw [if_pos hg, if_neg hb, if_pos hb2]
        rw [hstep]
        have e1 : sinkF (sinkMeas L count i) (swap L i (right i)) count (right i)
            = sink (swap L i (right i)) count (right i) :=
          sinkF_stable (sinkMeas (swap L i (right i)) count (right i))
            (swap L i (right i)) count (right i) (sinkMeas L count i)
            (sinkMeas (swap L i (right i)) count (right i) + 1)
            (le_refl _) (by omega) (by omega)
        rw [e1]
        have d2 : sinkMeas (sink (swap L i (right i)) count (right i)) count i
            < sinkMeas L count i :=
          sink_meas_cont (sinkMeas (swap L i (right i)) count (right i) + 1)
            L count (right i) hir hb2
        show _ = sinkF (sinkMeas (sink (swap L i (right i)) count (right i)) count i + 1)
          (sink (swap L i (right i)) count (right i)) count i
        exact sinkF_stable (sinkMeas (sink (swap L i (right i)) count (right i)) count i)
          (sink (swap L i (right i)) count (right i)) count i (sinkMeas L count i)
          (sinkMeas (sink (swap L i (right i)) count (right i)) count i + 1)
          (le_refl _) (by omega) (by omega)
      · rw [if_neg hb2]
        unfold sink
        simp only [sinkF]
        rw [if_pos hg, if_neg hb, if_neg hb2]
  · rw [if_neg hg]
    unfold sink
    simp only [sinkF]
    rw [if_neg hg]

theorem sink_length (L : Storage V) (count i : Nat) :
    (sink L count i).length = L.length :=
  sinkF_length _ L count i

theorem sink_untouched (L : Storage V) (count i j : Nat) (hi : 1 ≤ i)
    (hj : j = 0 ∨ count < j ∨ ¬ inSub i j) :
    getSlot (sink L count i) j = getSlot L j :=
  sinkF_untouched _ L count i j hi hj

theorem sink_countP (L : Storage V) (count i : Nat) (p : Slot V → Bool) :
    (sink L count i).countP p = L.countP p :=
  sinkF_countP _ L count i p

theorem sink_mapsTo (L : Storage V) (count i : Nat) (hi : 1 ≤ i)
    (j : Nat) (hj1 : 1 ≤ j) (hj2 : j ≤ count) :
    ∃ k, 1 ≤ k ∧ k ≤ count ∧ getSlot (sink L count i) j = getSlot L k :=
  sinkF_mapsTo _ L count i hi j hj1 hj2

/-! ## The heap-order invariant -/

theorem live_swap {L : Storage V} {count i c : Nat} (hLive : Live L count)
    (hi1 : 1 ≤ i) (hic : i ≤ count) (hc1 : 1 ≤ c) (hcc : c ≤ count)
    (hiL : i < L.length) (hcL : c < L.length) : Live (swap L i c) count := by
  intro j hj1 hj2
  rw [getSlot_swap L i c j hiL hcL]
  by_cases h1 : c = j
  · rw [if_pos h1]
    exact hLive i hi1 hic
  · rw [if_neg h1]
    by_cases h2 : i = j
    · rw [if_pos h2]
      exact hLive c hc1 hcc
    · rw [if_neg h2]
      exact hLive j hj1 hj2

theorem live_sink {L : Storage V} {count i : Nat} (hi : 1 ≤ i)
    (hLive : Live L count) : Live (sink L count i) count := by
  intro j hj1 hj2
  rcases sink_mapsTo L count i hi j hj1 hj2 with ⟨k, hk1, hk2, he⟩
  rcases hLive k hk1 hk2 with ⟨p, e, hs⟩
  exact ⟨p, e, by rw [he, hs]⟩

theorem live_float {L : Storage V} {count i : Nat} (hic : i ≤ count)
    (hLive : Live L count) : Live (float L i) count := by
  intro j hj1 hj2
  rcases float_mapsTo L i count hic j hj1 hj2 with ⟨k, hk1, hk2, he⟩
  rcases hLive k hk1 hk2 with ⟨p, e, hs⟩
  exact ⟨p, e, by rw [he, hs]⟩

theorem prioAt_swap_of_ne (L : Storage V) {i c k : Nat}
    (h1 : i ≠ k) (h2 : c ≠ k) : prioAt (swap L i c) k = prioAt L k := by
  unfold prioAt
  rw [getSlot_swap_of_ne L h1 h2]

theorem prioAt_swap_fst (L : Storage V) {i c : Nat}
    (hiL : i < L.length) (hcL : c < L.length) (hne : c ≠ i) :
    prioAt (swap L i c) i = prioAt L c := by
  unfold prioAt
  rw [getSlot_swap L i c i hiL hcL, if_neg hne, if_pos rfl]

theorem prioAt_swap_snd (L : Storage V) {i c : Nat}
    (hiL : i < L.length) (hcL : c < L.length) :
    prioAt (swap L i c) c = prioAt L i := by
  unfold prioAt
  rw [getSlot_swap L i c c hiL hcL, if_pos rfl]

theorem prioAt_sink_untouched (L : Storage V) (count i j : Nat) (hi : 1 ≤ i)
    (hj : j = 0 ∨ count < j ∨ ¬ inSub i j) :
    prioAt (sink L count i) j = prioAt L j := by
  unfold prioAt
  rw [sink_untouched L count i j hi hj]

theorem sub_left_right_disjoint {i k : Nat} (hi : 1 ≤ i)
    (h1 : inSub (left i) k) (h2 : inSub (right i) k) : False := by
  rcases inSub_comparable k (left i) (right i) h1 h2 with h | h
  · exact (not_inSub_left_right hi).1 h
  · exact (not_inSub_left_right hi).2 h

theorem lt_of_inSub_left {i k : Nat} (hi : 1 ≤ i) (h : inSub (left i) k) :
    i < k := by
  have := inSub_le h
  unfold left at this
  omega

theorem lt_of_inSub_right {i k : Nat} (h : inSub (right i) k) : i < k := by
  have := inSub_le h
  unfold right at this
  omega

theorem eq_child_of_parent_eq {i j : Nat} (h : parent j = i) :
    j = left i ∨ j = right i := by
  unfold parent at h
  unfold left right
  omega

theorem inSub_of_parent_mem {i j : Nat} (h : inSub i (parent j)) : inSub i j :=
  inSub_of_parent h

/-- Within a heap-ordered subtree, the subtree root dominates every member. -/
theorem sub_dominance {L : Storage V} {count c : Nat}
    (hLive : Live L count) (hc1 : 1 ≤ c)
    (hord : ∀ j, 1 < j → j ≤ count → inSub c (parent j) →
      pLe (prioAt L j) (prioAt L (parent j))) :
    ∀ j, inSub c j → j ≤ count → pLe (prioAt L j) (prioAt L c) := by
  intro j
  induction j using Nat.strong_induction_on with
  | _ j ih =>
    intro hs hj
    by_cases hjc : j = c
    · subst hjc
      exact pLe_refl _
    · have hcj : c ≤ j := inSub_le hs
      have hj2 : 1 < j := by omega
      have hpar : inSub c (parent j) := inSub_parent_of_ne hs hjc
      have hple : parent j ≤ j := Nat.div_le_self j 2
      have hplt : parent j < j := Nat.div_lt_self (by omega) (by omega)
      have h1 : pLe (prioAt L j) (prioAt L (parent j)) := hord j hj2 hj hpar
      have h2 : pLe (prioAt L (parent j)) (prioAt L c) :=
        ih (parent j) hplt hpar (by omega)
      have hp1 : 1 ≤ parent j := le_trans hc1 (inSub_le hpar)
      rcases hLive (parent j) hp1 (by omega) with ⟨p, e, hsl⟩
      have hps : prioAt L (parent j) = some p := by
        unfold prioAt
        rw [hsl]
        rfl
      rw [hps] at h1 h2
      exact pLe_trans_some p h1 h2

/-- Root dominance over the subtree of a child of `i`, derived from
`SinkPre` (all pairs strictly inside a child subtree are ordered). -/
theorem dom_child {L : Storage V} {count i c : Nat} (hLive : Live L count)
    (hi : 1 ≤ i) (hc : c = left i ∨ c = right i) (hpre : SinkPre L count i) :
    ∀ j, inSub c j → j ≤ count → pLe (prioAt L j) (prioAt L c) := by
  have hc1 : 1 ≤ c := by
    rcases hc with h | h <;> (subst h; simp only [left, right]; omega)
  have hci : inSub i c := by
    rcases hc with h | h
    · exact h ▸ inSub_left i
    · exact h ▸ inSub_right i
  have hic : i < c := by
    rcases hc with h | h <;> (subst h; simp only [left, right]; omega)
  apply sub_dominance hLive hc1
  intro j hj1 hj2 hsub
  apply hpre j hj1 hj2 (inSub_trans hci hsub)
  have := inSub_le hsub
  omega

theorem pLe_some_some {a b : Int} (h : a ≤ b) : pLe (some a) (some b) := by
  intro x y hx hy
  cases hx
  cases hy
  omega

theorem not_guard_left {L : Storage V} {count i : Nat}
    (hng : ¬ sinkGuard L count i) (h : left i ≤ count) :
    jsLt (prioAt L i) (prioAt L (left i)) = false := by
  cases hLt : jsLt (prioAt L i) (prioAt L (left i)) with
  | false => rfl
  | true => exact absurd (Or.inl ⟨h, hLt⟩) hng

theorem not_guard_right {L : Storage V} {count i : Nat}
    (hng : ¬ sinkGuard L count i) (h : right i ≤ count) :
    jsLt (prioAt L i) (prioAt L (right i)) = false := by
  cases hLt : jsLt (prioAt L i) (prioAt L (right i)) with
  | false => rfl
  | true => exact absurd (Or.inr ⟨h, hLt⟩) hng

/-- Correctness of `_sink i`: started from a state in which every
parent/child pair with parent inside the subtree of `i` is ordered except
possibly the two pairs at `i` itself, it (1) restores order on all pairs
with parent in the subtree of `i`, and (2) leaves at `i` a priority bounded
by any upper bound of the subtree's original priorities. -/
theorem sink_correct : ∀ (d : Nat) (L : Storage V) (count i : Nat),
    count + 1 - i ≤ d →
    Live L count → 1 ≤ i → i ≤ count → SinkPre L count i →
    (∀ j, 1 < j → j ≤ count → inSub i (parent j) →
      pLe (prioAt (sink L count i) j) (prioAt (sink L count i) (parent j))) ∧
    (∀ x : Int, (∀ j, 1 ≤ j → j ≤ count → inSub i j → pLe (prioAt L j) (some x)) →
      pLe (prioAt (sink L count i) i) (some x)) := by
  intro d
  induction d with
  | zero =>
    intro L count i hd _ _ hic _
    omega
  | succ d ih =>
    intro L count i hd hLive hi hic hpre
    by_cases hg : sinkGuard L count i
    case neg =>
      -- the loop guard fails immediately: no in-range child is greater
      have hfinal : sink L count i = L := by
        rw [sink_eq L count i, if_neg hg]
      constructor
      · intro j hj1 hj2 hsub
        rw [hfinal]
        by_cases hpj : parent j = i
        · rcases eq_child_of_parent_eq hpj with hjl | hjr
          · rw [hpj, hjl]
            exact pLe_of_jsLt_eq_false (not_guard_left hg (hjl ▸ hj2))
          · rw [hpj, hjr]
            exact pLe_of_jsLt_eq_false (not_guard_right hg (hjr ▸ hj2))
        · exact hpre j hj1 hj2 hsub hpj
      · intro x hx
        rw [hfinal]
        exact hx i hi hic (inSub_self i)
    case pos =>
    by_cases hb : jsLt (prioAt L i) (prioAt L (left i)) = true
    case pos =>
      -- first branch: swap with the left child, sink there, re-check
      rcases sink_branch1_facts hg hb with ⟨hi1, hil, hlc, hiL, hlL⟩
      rcases jsLt_eq_true_iff.1 hb with ⟨a, b, ha, hbp, hab⟩
      have hlne : left i ≠ i := by omega
      have hSi : prioAt (swap L i (left i)) i = some b := by
        rw [prioAt_swap_fst L hiL hlL hlne]
        exact hbp
      have hSl : prioAt (swap L i (left i)) (left i) = some a := by
        rw [prioAt_swap_snd L hiL hlL]
        exact ha
      have hSk : ∀ k, i ≠ k → left i ≠ k →
          prioAt (swap L i (left i)) k = prioAt L k := fun k h1 h2 =>
        prioAt_swap_of_ne L h1 h2
      have hLiveS : Live (swap L i (left i)) count :=
        live_swap hLive hi (by omega) (by omega) hlc hiL hlL
      have hpreS : SinkPre (swap L i (left i)) count (left i) := by
        intro j hj1 hj2 hsub hne
        have hlp : left i ≤ parent j := inSub_le hsub
        have hpj : parent j < j := Nat.div_lt_self (by omega) (by omega)
        rw [hSk j (by omega) (by omega), hSk (parent j) (by omega) (by omega)]
        exact hpre j hj1 hj2 (inSub_trans (inSub_left i) hsub) (by omega)
      rcases ih (swap L i (left i)) count (left i) (by omega) hLiveS
        (by omega) hlc hpreS with ⟨ord₁, bnd₁⟩
      have domL := dom_child hLive hi (Or.inl rfl) hpre
      have hM₁root : pLe (prioAt (sink (swap L i (left i)) count (left i)) (left i))
          (some b) := by
        apply bnd₁ b
        intro j hj1 hj2 hsub
        by_cases hje : j = left i
        · rw [hje, hSl]
          exact pLe_some_some (by omega)
        · have hjgt : left i < j := by
            have := inSub_le hsub
            omega
          rw [hSk j (by omega) (by omega)]
          have := domL j hsub hj2
          rw [hbp] at this
          exact this
      have hM₁i : prioAt (sink (swap L i (left i)) count (left i)) i = some b := by
        rw [prioAt_sink_untouched _ count (left i) i (by omega)
          (Or.inr (Or.inr (not_inSub_of_lt hil)))]
        exact hSi
      have hM₁out : ∀ k, ¬ inSub (left i) k → i ≠ k → left i ≠ k →
          prioAt (sink (swap L i (left i)) count (left i)) k = prioAt L k := by
        intro k hk h1 h2
        rw [prioAt_sink_untouched _ count (left i) k (by omega)
          (Or.inr (Or.inr hk)), hSk k h1 h2]
      have hirne : i ≠ right i := by
        simp only [right]
        omega
      have hlrne : left i ≠ right i := by
        simp only [left, right]
        omega
      have hM₁r : prioAt (sink (swap L i (left i)) count (left i)) (right i)
          = prioAt L (right i) :=
        hM₁out (right i) (not_inSub_left_right hi).1 hirne hlrne
      have hfalse1 : jsLt (prioAt (sink (swap L i (left i)) count (left i)) i)
          (prioAt (sink (swap L i (left i)) count (left i)) (left i)) = false := by
        rw [hM₁i]
        exact jsLt_eq_false_of_pLe hM₁root
      by_cases hrb : right i ≤ count ∧
          jsLt (prioAt (sink (swap L i (left i)) count (left i)) i)
            (prioAt (sink (swap L i (left i)) count (left i)) (right i)) = true
      case neg =>
        -- the re-check fails: the loop stops with the left-phase result
        have hng : ¬ sinkGuard (sink (swap L i (left i)) count (left i)) count i := by
          intro hgg
          rcases hgg with ⟨_, h⟩ | hh
          · rw [hfalse1] at h
            exact Bool.noConfusion h
          · exact hrb hh
        have hfinal : sink L count i = sink (swap L i (left i)) count (left i) := by
          rw [sink_eq L count i, if_pos hg, if_pos hb,
            sink_eq (sink (swap L i (left i)) count (left i)) count i, if_neg hng]
        constructor
        · intro j hj1 hj2 hsub
          rw [hfinal]
          by_cases hpj : parent j = i
          · rcases eq_child_of_parent_eq hpj with hjl | hjr
            · rw [hpj, hjl, hM₁i]
              exact hM₁root
            · rw [hpj, hjr, hM₁i]
              have hrcc : right i ≤ count := hjr ▸ hj2
              have : jsLt (prioAt (sink (swap L i (left i)) count (left i)) i)
                  (prioAt (sink (swap L i (left i)) count (left i)) (right i))
                  = false := by
                cases hLt : jsLt (prioAt (sink (swap L i (left i)) count (left i)) i)
                    (prioAt (sink (swap L i (left i)) count (left i)) (right i)) with
                | false => rfl
                | true => exact absurd ⟨hrcc, hLt⟩ hrb
              have := pLe_of_jsLt_eq_false this
              rw [hM₁i] at this
              exact this
          · rcases inSub_child_of_ne hsub hpj with hL | hR
            · exact ord₁ j hj1 hj2 hL
            · have hjR : inSub (right i) j := inSub_of_parent_mem hR
              have h1 : i < j := lt_of_inSub_right hjR
              have h2 : i < parent j := lt_of_inSub_right hR
              rw [hM₁out j (fun hh => sub_left_right_disjoint hi hh hjR)
                  (by omega) (fun hh => (not_inSub_left_right hi).2 (by rw [hh]; exact hjR)),
                hM₁out (parent j) (fun hh => sub_left_right_disjoint hi hh hR)
                  (by omega) (fun hh => (not_inSub_left_right hi).2 (by rw [hh]; exact hR))]
              exact hpre j hj1 hj2 (inSub_trans (inSub_right i) hR) (by omega)
        · intro x hx
          rw [hfinal, hM₁i]
          have := hx (left i) (by omega) hlc (inSub_left i)
          rw [hbp] at this
          exact this
      case pos =>
        -- the re-check triggers the right branch: swap with the right child
        have hrc : right i ≤ count := hrb.1
        have hRlt : jsLt (some b) (prioAt L (right i)) = true := by
          have := hrb.2
          rw [hM₁i, hM₁r] at this
          exact this
        rcases jsLt_eq_true_iff.1 hRlt with ⟨b'', R, hbeq, hRp, hbR0⟩
        have hbR : b < R := by
          injection hbeq with h
          omega
        have hrL : right i < L.length := lt_length_of_prioAt_eq_some hRp
        have hirgt : i < right i := by
          simp only [right]
          omega
        have hg' : sinkGuard (sink (swap L i (left i)) count (left i)) count i :=
          Or.inr hrb
        have hnb1 : ¬ (jsLt (prioAt (sink (swap L i (left i)) count (left i)) i)
            (prioAt (sink (swap L i (left i)) count (left i)) (left i)) = true) := by
          rw [hfalse1]
          exact Bool.noConfusion
        have hM₁len : (sink (swap L i (left i)) count (left i)).length = L.length := by
          rw [sink_length, length_swap]
        have hiM₁ : i < (sink (swap L i (left i)) count (left i)).length := by
          omega
        have hrM₁ : right i < (sink (swap L i (left i)) count (left i)).length := by
          omega
        have hS₂i : prioAt (swap (sink (swap L i (left i)) count (left i)) i (right i)) i
            = some R := by
          rw [prioAt_swap_fst _ hiM₁ hrM₁ (fun hh => hirne hh.symm), hM₁r]
          exact hRp
        have hS₂r : prioAt (swap (sink (swap L i (left i)) count (left i)) i (right i))
            (right i) = some b := by
          rw [prioAt_swap_snd _ hiM₁ hrM₁]
          exact hM₁i
        have hS₂k : ∀ k, i ≠ k → right i ≠ k →
            prioAt (swap (sink (swap L i (left i)) count (left i)) i (right i)) k
              = prioAt (sink (swap L i (left i)) count (left i)) k := fun k h1 h2 =>
          prioAt_swap_of_ne _ h1 h2
        have hLiveM₁ : Live (sink (swap L i (left i)) count (left i)) count :=
          live_sink (by omega) hLiveS
        have hLiveS₂ : Live (swap (sink (swap L i (left i)) count (left i)) i (right i))
            count :=
          live_swap hLiveM₁ hi (by omega) (by omega) hrc hiM₁ hrM₁
        have hpreS₂ : SinkPre (swap (sink (swap L i (left i)) count (left i)) i (right i))
            count (right i) := by
          intro j hj1 hj2 hsub hne
          have hrp : right i ≤ parent j := inSub_le hsub
          have hpj : parent j < j := Nat.div_lt_self (by omega) (by omega)
          have hjR : inSub (right i) j := inSub_of_parent_mem hsub
          rw [hS₂k j (by omega) (by omega), hS₂k (parent j) (by omega) (by omega),
            hM₁out j (fun hh => sub_left_right_disjoint hi hh hjR)
              (by omega) (fun hh => (not_inSub_left_right hi).2 (by rw [hh]; exact hjR)),
            hM₁out (parent j) (fun hh => sub_left_right_disjoint hi hh hsub)
              (by omega) (fun hh => (not_inSub_left_right hi).2 (by rw [hh]; exact hsub))]
          exact hpre j hj1 hj2 (inSub_trans (inSub_right i) hsub) (by omega)
        rcases ih (swap (sink (swap L i (left i)) count (left i)) i (right i)) count
          (right i) (by omega) hLiveS₂ (by omega) hrc hpreS₂
          with ⟨ord₂, bnd₂⟩
        have domR := dom_child hLive hi (Or.inr rfl) hpre
        have hM₂root : pLe (prioAt (sink
            (swap (sink (swap L i (left i)) count (left i)) i (right i)) count (right i))
            (right i)) (some R) := by
          apply bnd₂ R
          intro j hj1 hj2 hsub
          by_cases hje : j = right i
          · rw [hje, hS₂r]
            exact pLe_some_some (by omega)
          · have hjgt : right i < j := by
              have := inSub_le hsub
              omega
            rw [hS₂k j (by omega) (by omega),
              hM₁out j (fun hh => sub_left_right_disjoint hi hh hsub)
                (by omega) (fun hh => (not_inSub_left_right hi).2 (by rw [hh]; exact hsub))]
            have := domR j hsub hj2
            rw [hRp] at this
            exact this
        have hM₂i : prioAt (sink
            (swap (sink (swap L i (left i)) count (left i)) i (right i)) count (right i)) i
            = some R := by
          rw [prioAt_sink_untouched _ count (right i) i (by omega)
            (Or.inr (Or.inr (not_inSub_of_lt (by simp only [right]; omega))))]
          exact hS₂i
        have hM₂subL : ∀ k, inSub (left i) k →
            prioAt (sink (swap (sink (swap L i (left i)) count (left i)) i (right i))
              count (right i)) k
            = prioAt (sink (swap L i (left i)) count (left i)) k := by
          intro k hk
          have h1 : i < k := lt_of_inSub_left hi hk
          rw [prioAt_sink_untouched _ count (right i) k (by omega)
            (Or.inr (Or.inr (fun hh => sub_left_right_disjoint hi hk hh))),
            hS₂k k (by omega) (fun hh => (not_inSub_left_right hi).1 (by rw [hh]; exact hk))]
        have hM₂l : prioAt (sink
            (swap (sink (swap L i (left i)) count (left i)) i (right i)) count (right i))
            (left i) = prioAt (sink (swap L i (left i)) count (left i)) (left i) :=
          hM₂subL (left i) (inSub_self (left i))
        have hng₂ : ¬ sinkGuard (sink
            (swap (sink (swap L i (left i)) count (left i)) i (right i)) count (right i))
            count i := by
          intro hgg
          rcases hgg with ⟨_, h⟩ | ⟨_, h⟩
          · rw [hM₂i, hM₂l] at h
            have : pLe (prioAt (sink (swap L i (left i)) count (left i)) (left i))
                (some R) := pLe_some_mono hM₁root (by omega)
            rw [jsLt_eq_false_of_pLe this] at h
            exact Bool.noConfusion h
          · rw [hM₂i, jsLt_eq_false_of_pLe hM₂root] at h
            exact Bool.noConfusion h
        have hfinal : sink L count i = sink
            (swap (sink (swap L i (left i)) count (left i)) i (right i)) count (right i) := by
          rw [sink_eq L count i, if_pos hg, if_pos hb,
            sink_eq (sink (swap L i (left i)) count (left i)) count i, if_pos hg',
            if_neg hnb1, if_pos hrb.2,
            sink_eq (sink (swap (sink (swap L i (left i)) count (left i)) i (right i))
              count (right i)) count i, if_neg hng₂]
        constructor
        · intro j hj1 hj2 hsub
          rw [hfinal]
          by_cases hpj : parent j = i
          · rcases eq_child_of_parent_eq hpj with hjl | hjr
            · rw [hpj, hjl, hM₂i, hM₂l]
              exact pLe_some_mono hM₁root (by omega)
            · rw [hpj, hjr, hM₂i]
              exact hM₂root
          · rcases inSub_child_of_ne hsub hpj with hL | hR
            · have hjL : inSub (left i) j := inSub_of_parent_mem hL
              rw [hM₂subL j hjL, hM₂subL (parent j) hL]
              exact ord₁ j hj1 hj2 hL
            · exact ord₂ j hj1 hj2 hR
        · intro x hx
          rw [hfinal, hM₂i]
          have := hx (right i) (by omega) hrc (inSub_right i)
          rw [hRp] at this
          exact this
    case neg =>
      by_cases hb2 : jsLt (prioAt L i) (prioAt L (right i)) = true
      case pos =>
        -- direct right branch: the left child is not greater, the right is
        rcases sink_branch2_facts hg (Bool.of_not_eq_true hb) hb2 with
          ⟨hir, hrc, hiL, hrL⟩
        rcases jsLt_eq_true_iff.1 hb2 with ⟨a, R, ha, hRp, haR⟩
        have hrne : right i ≠ i := by omega
        have hS₁i : prioAt (swap L i (right i)) i = some R := by
          rw [prioAt_swap_fst L hiL hrL hrne]
          exact hRp
        have hS₁r : prioAt (swap L i (right i)) (right i) = some a := by
          rw [prioAt_swap_snd L hiL hrL]
          exact ha
        have hS₁k : ∀ k, i ≠ k → right i ≠ k →
            prioAt (swap L i (right i)) k = prioAt L k := fun k h1 h2 =>
          prioAt_swap_of_ne L h1 h2
        have hlla : pLe (prioAt L (left i)) (some a) := by
          have := pLe_of_jsLt_eq_false (Bool.of_not_eq_true hb)
          rw [ha] at this
          exact this
        have hLiveS : Live (swap L i (right i)) count :=
          live_swap hLive hi (by omega) (by omega) hrc hiL hrL
        have hpreS : SinkPre (swap L i (right i)) count (right i) := by
          intro j hj1 hj2 hsub hne
          have hrp : right i ≤ parent j := inSub_le hsub
          have hpj : parent j < j := Nat.div_lt_self (by omega) (by omega)
          rw [hS₁k j (by omega) (by omega), hS₁k (parent j) (by omega) (by omega)]
          exact hpre j hj1 hj2 (inSub_trans (inSub_right i) hsub) (by omega)
        rcases ih (swap L i (right i)) count (right i) (by omega) hLiveS
          (by omega) hrc hpreS with ⟨ord₁, bnd₁⟩
        have domR := dom_child hLive hi (Or.inr rfl) hpre
        have hM₁root : pLe (prioAt (sink (swap L i (right i)) count (right i)) (right i))
            (some R) := by
          apply bnd₁ R
          intro j hj1 hj2 hsub
          by_cases hje : j = right i
          · rw [hje, hS₁r]
            exact pLe_some_some (by omega)
          · have hjgt : right i < j := by
              have := inSub_le hsub
              omega
            rw [hS₁k j (by omega) (by omega)]
            have := domR j hsub hj2
            rw [hRp] at this
            exact this
        have hM₁i : prioAt (sink (swap L i (right i)) count (right i)) i = some R := by
          rw [prioAt_sink_untouched _ count (right i) i (by omega)
            (Or.inr (Or.inr (not_inSub_of_lt hir)))]
          exact hS₁i
        have hlrne : left i ≠ right i := by
          simp only [left, right]
          omega
        have hiln : i ≠ left i := by
          simp only [left]
          omega
        have hM₁l : prioAt (sink (swap L i (right i)) count (right i)) (left i)
            = prioAt L (left i) := by
          rw [prioAt_sink_untouched _ count (right i) (left i) (by omega)
            (Or.inr (Or.inr (not_inSub_left_right (by omega)).2)),
            hS₁k (left i) hiln hlrne.symm]
        have hng : ¬ sinkGuard (sink (swap L i (right i)) count (right i)) count i := by
          intro hgg
          rcases hgg with ⟨_, h⟩ | ⟨_, h⟩
          · rw [hM₁i, hM₁l] at h
            have : pLe (prioAt L (left i)) (some R) := pLe_some_mono hlla (by omega)
            rw [jsLt_eq_false_of_pLe this] at h
            exact Bool.noConfusion h
          · rw [hM₁i, jsLt_eq_false_of_pLe hM₁root] at h
            exact Bool.noConfusion h
        have hfinal : sink L count i = sink (swap L i (right i)) count (right i) := by
          rw [sink_eq L count i, if_pos hg, if_neg hb, if_pos hb2,
            sink_eq (sink (swap L i (right i)) count (right i)) count i, if_neg hng]
        constructor
        · intro j hj1 hj2 hsub
          rw [hfinal]
          by_cases hpj : parent j = i
          · rcases eq_child_of_parent_eq hpj with hjl | hjr
            · rw [hpj, hjl, hM₁i, hM₁l]
              exact pLe_some_mono hlla (by omega)
            · rw [hpj, hjr, hM₁i]
              exact hM₁root
          · rcases inSub_child_of_ne hsub hpj with hL | hR
            · have hjL : inSub (left i) j := inSub_of_parent_mem hL
              have hi' : 1 ≤ i := hi
              have h1 : i < j := lt_of_inSub_left hi' hjL
              have h2 : i < parent j := lt_of_inSub_left hi' hL
              have e1 : prioAt (sink (swap L i (right i)) count (right i)) j
                  = prioAt L j := by
                rw [prioAt_sink_untouched _ count (right i) j (by omega)
                  (Or.inr (Or.inr (fun hh => sub_left_right_disjoint hi' hjL hh))),
                  hS₁k j (by omega)
                    (fun hh => (not_inSub_left_right hi').1 (by rw [hh]; exact hjL))]
              have e2 : prioAt (sink (swap L i (right i)) count (right i)) (parent j)
                  = prioAt L (parent j) := by
                rw [prioAt_sink_untouched _ count (right i) (parent j) (by omega)
                  (Or.inr (Or.inr (fun hh => sub_left_right_disjoint hi' hL hh))),
                  hS₁k (parent j) (by omega)
                    (fun hh => (not_inSub_left_right hi').1 (by rw [hh]; exact hL))]
              rw [e1, e2]
              exact hpre j hj1 hj2 (inSub_trans (inSub_left i) hL) (by omega)
            · exact ord₁ j hj1 hj2 hR
        · intro x hx
          rw [hfinal, hM₁i]
          have := hx (right i) (by omega) hrc (inSub_right i)
          rw [hRp] at this
          exact this
      case neg =>
        -- contradiction: the guard held but neither branch test does
        exfalso
        rcases hg with ⟨_, h⟩ | ⟨_, h⟩
        · exact hb h
        · exact hb2 h

theorem jsLt_eq_false_of_pLe_rev {b : Int} {x : Option Int}
    (h : pLe (some b) x) : jsLt x (some b) = false := by
  cases x with
  | none => rfl
  | some v =>
    have := h b v rfl rfl
    simp [jsLt]
    omega

/-- Correctness of `_float i`: started from a state in which the heap order
holds on all pairs except possibly the pair at `i`, and in which `i`'s
children (if any) are already bounded by `i`'s parent, it restores the full
heap order. -/
theorem float_correct : ∀ (i : Nat) (L : Storage V) (count : Nat),
    Live L count → 1 ≤ i → i ≤ count →
    (∀ j, 1 < j → j ≤ count → j ≠ i → pLe (prioAt L j) (prioAt L (parent j))) →
    (2 ≤ i → ∀ c, c ≤ count → parent c = i → pLe (prioAt L c) (prioAt L (parent i))) →
    HeapOrd (float L i) count := by
  intro i
  induction i using Nat.strong_induction_on with
  | _ i ih =>
    intro L count hLive hi hic hmain hside
    by_cases hp0 : parent i = 0
    case pos =>
      -- `i` is the root: the guard is false and nothing moves
      have hfinal : float L i = L := by
        rw [float_eq, if_neg (fun hh => hh.1 hp0)]
      rw [show HeapOrd (float L i) count = HeapOrd L count from by rw [hfinal]]
      intro j hj1 hj2
      exact hmain j hj1 hj2 (by unfold parent at hp0; omega)
    case neg =>
      have hi2 : 2 ≤ i := two_le_of_parent_ne_zero hp0
      have hplt : parent i < i := parent_lt hp0
      have hp1 : 1 ≤ parent i := Nat.pos_of_ne_zero hp0
      by_cases hgt : jsGt (prioAt L i) (prioAt L (parent i)) = true
      case neg =>
        have hfinal : float L i = L := by
          rw [float_eq, if_neg (fun hh => hgt hh.2)]
        rw [show HeapOrd (float L i) count = HeapOrd L count from by rw [hfinal]]
        intro j hj1 hj2
        by_cases hji : j = i
        · subst hji
          exact pLe_of_jsLt_eq_false (Bool.of_not_eq_true hgt)
        · exact hmain j hj1 hj2 hji
      case pos =>
        -- the moving record exceeds its parent: swap up and recurse
        have hgt' : jsLt (prioAt L (parent i)) (prioAt L i) = true := hgt
        rcases jsLt_eq_true_iff.1 hgt' with ⟨b, a, hb, ha, hba⟩
        have hpL := lt_length_of_prioAt_eq_some hb
        have hiL := lt_length_of_prioAt_eq_some ha
        have hpne : parent i ≠ i := by omega
        have hSi : prioAt (swap L i (parent i)) i = some b := by
          rw [prioAt_swap_fst L hiL hpL hpne]
          exact hb
        have hSp : prioAt (swap L i (parent i)) (parent i) = some a := by
          rw [prioAt_swap_snd L hiL hpL]
          exact ha
        have hSk : ∀ k, i ≠ k → parent i ≠ k →
            prioAt (swap L i (parent i)) k = prioAt L k := fun k h1 h2 =>
          prioAt_swap_of_ne L h1 h2
        have hLiveS : Live (swap L i (parent i)) count :=
          live_swap hLive hi hic hp1 (by omega) hiL hpL
        have hmain' : ∀ j, 1 < j → j ≤ count → j ≠ parent i →
            pLe (prioAt (swap L i (parent i)) j)
              (prioAt (swap L i (parent i)) (parent j)) := by
          intro j hj1 hj2 hjp
          by_cases hji : j = i
          · subst hji
            rw [hSi, hSp]
            exact pLe_some_some (by omega)
          · have hpjlt : parent j < j := Nat.div_lt_self (by omega) (by omega)
            by_cases hpji : parent j = i
            · -- `j` is a child of `i`
              have hjne_p : parent i ≠ j := by omega
              rw [hSk j (fun hh => hji hh.symm) hjne_p, hpji, hSi]
              have := hside hi2 j hj2 hpji
              rw [hb] at this
              exact this
            · by_cases hpjp : parent j = parent i
              · -- `j` is the sibling of `i`
                rw [hSk j (fun hh => hji hh.symm) (fun hh => hjp hh.symm),
                  hpjp, hSp]
                have h1 := hmain j hj1 hj2 hji
                rw [hpjp, hb] at h1
                exact pLe_some_mono h1 (by omega)
              · -- pair untouched by the swap
                rw [hSk j (fun hh => hji hh.symm) (fun hh => hjp hh.symm),
                  hSk (parent j) (fun hh => hpji hh.symm) (fun hh => hpjp hh.symm)]
                exact hmain j hj1 hj2 hji
        have hside' : 2 ≤ parent i → ∀ c, c ≤ count → parent c = parent i →
            pLe (prioAt (swap L i (parent i)) c)
              (prioAt (swap L i (parent i)) (parent (parent i))) := by
          intro hp2 c hcc hpc
          have hpplt : parent (parent i) < parent i := Nat.div_lt_self (by omega) (by omega)
          have hppne_i : i ≠ parent (parent i) := by omega
          have hppne_p : parent i ≠ parent (parent i) := by omega
          rw [hSk (parent (parent i)) hppne_i hppne_p]
          have hchain : pLe (some b) (prioAt L (parent (parent i))) := by
            have := hmain (parent i) (by omega) (by omega) (by omega)
            rw [hb] at this
            exact this
          by_cases hci : c = i
          · subst hci
            rw [hSi]
            exact hchain
          · have hcp : c ≠ parent i := by
              intro hh
              rw [hh] at hpc
              unfold parent at hpc
              omega
            rw [hSk c (fun hh => hci hh.symm) (fun hh => hcp hh.symm)]
            have hc2 : 1 < c := by
              unfold parent at hpc
              omega
            have h1 := hmain c hc2 hcc hci
            rw [hpc, hb] at h1
            exact pLe_trans_some b h1 hchain
        have hIH := ih (parent i) hplt (swap L i (parent i)) count hLiveS hp1
          (by omega) hmain' hside'
        have hM₁i : prioAt (float (swap L i (parent i)) (parent i)) i = some b := by
          unfold prioAt
          rw [float_untouched _ (parent i) i (Or.inr hplt)]
          exact hSi
        have hgf : jsGt (prioAt (float (swap L i (parent i)) (parent i)) i)
            (prioAt (float (swap L i (parent i)) (parent i)) (parent i)) = false := by
          rw [hM₁i]
          exact jsLt_eq_false_of_pLe_rev (by
            have := hIH i hi2 hic
            rw [hM₁i] at this
            exact this)
        have hfinal : float L i = float (swap L i (parent i)) (parent i) := by
          rw [float_eq L i, if_pos ⟨hp0, hgt⟩,
            float_eq (float (swap L i (parent i)) (parent i)) i]
          rw [if_neg ?hneg]
          case hneg =>
            intro hh
            rw [hgf] at hh
            exact Bool.noConfusion hh.2
        rw [show HeapOrd (float L i) count
            = HeapOrd (float (swap L i (parent i)) (parent i)) count from by rw [hfinal]]
        exact hIH

/-! ## Invariant preservation by the public operations -/

theorem inSub_one : ∀ k, 1 ≤ k → inSub 1 k := by
  intro k
  induction k using Nat.strong_induction_on with
  | _ k ih =>
    intro hk
    by_cases h1 : k = 1
    · exact h1 ▸ inSub_self 1
    · have h2 : 2 ≤ k := by omega
      exact inSub_of_parent (ih (k / 2) (by omega) (by omega))

theorem prioAt_set_of_ne (L : Storage V) {m k : Nat} (hne : m ≠ k)
    (x : Slot V) : prioAt (L.set m x) k = prioAt L k := by
  unfold prioAt
  rw [getSlot_set, if_neg (fun hh => hne hh.1)]

theorem inv_emptyHeap (V : Type) (n : Nat) : Inv (emptyHeap V n) := by
  refine ⟨by simp [emptyHeap], by simp [emptyHeap], ?_, ?_⟩
  · intro j hj1 hj2
    have : j ≤ 0 := hj2
    omega
  · intro j hj1 hj2
    have : j ≤ 0 := hj2
    omega

theorem insert_inv {h : Heap V} (hInv : Inv h) (hlt : h.count < h.size)
    (p : Int) (e : Option V) :
    Inv ⟨float (h.storage.set (h.count + 1) (some ⟨some p, e⟩)) (h.count + 1),
      h.size, h.count + 1⟩ := by
  obtain ⟨hlen, hcs, hLive, hOrd⟩ := hInv
  have hc1L : h.count + 1 < h.storage.length := by omega
  have hLive' : Live (h.storage.set (h.count + 1) (some ⟨some p, e⟩))
      (h.count + 1) := by
    intro j hj1 hj2
    by_cases hj : j = h.count + 1
    · rw [getSlot_set, if_pos ⟨hj.symm, hc1L⟩]
      exact ⟨p, e, rfl⟩
    · rw [getSlot_set, if_neg (fun hh => hj hh.1.symm)]
      exact hLive j hj1 (by omega)
  refine ⟨?_, show h.count + 1 ≤ h.size by omega, ?_, ?_⟩
  · show (float (h.storage.set (h.count + 1) (some ⟨some p, e⟩))
      (h.count + 1)).length = h.size + 1
    rw [float_length, List.length_set]
    exact hlen
  · exact live_float (le_refl _) hLive'
  · apply float_correct (h.count + 1) _ (h.count + 1) hLive' (by omega) (le_refl _)
    · intro j hj1 hj2 hji
      have hjc : j ≤ h.count := by omega
      have hpj : parent j < j := Nat.div_lt_self (by omega) (by omega)
      rw [prioAt_set_of_ne _ (by omega) _, prioAt_set_of_ne _ (by omega) _]
      exact hOrd j hj1 hjc
    · intro h2 c hcc hpc
      exfalso
      unfold parent at hpc
      omega

theorem removeMax_snd_zero {h : Heap V} (h0 : h.count = 0) :
    (removeMax h).2 = h := by
  unfold removeMax
  rw [if_pos h0]

theorem removeMax_snd_one {h : Heap V} (h1 : h.count = 1) :
    (removeMax h).2 = ⟨h.storage.set 1 none, h.size, 0⟩ := by
  unfold removeMax
  rw [if_neg (by omega), if_pos h1]

theorem removeMax_snd_big {h : Heap V} (hb : 2 ≤ h.count) :
    (removeMax h).2 =
      ⟨sink ((swap h.storage 1 h.count).set h.count none) (h.count - 1) 1,
       h.size, h.count - 1⟩ := by
  unfold removeMax
  rw [if_neg (by omega), if_neg (by omega)]

theorem removeMax_fst_zero {h : Heap V} (h0 : h.count = 0) :
    (removeMax h).1 = none := by
  unfold removeMax
  rw [if_pos h0]

theorem removeMax_fst_one {h : Heap V} (h1 : h.count = 1) :
    (removeMax h).1 = slotElem (getSlot h.storage 1) := by
  unfold removeMax
  rw [if_neg (by omega), if_pos h1]

theorem removeMax_fst_big {h : Heap V} (hb : 2 ≤ h.count) :
    (removeMax h).1
      = slotElem (getSlot (swap h.storage 1 h.count) h.count) := by
  unfold removeMax
  rw [if_neg (by omega), if_neg (by omega)]

theorem removeMax_count (h : Heap V) : (removeMax h).2.count = h.count - 1 := by
  by_cases h0 : h.count = 0
  · rw [removeMax_snd_zero h0]
    omega
  · by_cases h1 : h.count = 1
    · rw [removeMax_snd_one h1]
      show 0 = h.count - 1
      omega
    · rw [removeMax_snd_big (by omega)]

theorem removeMax_size (h : Heap V) : (removeMax h).2.size = h.size := by
  by_cases h0 : h.count = 0
  · rw [removeMax_snd_zero h0]
  · by_cases h1 : h.count = 1
    · rw [removeMax_snd_one h1]
    · rw [removeMax_snd_big (by omega)]

theorem removeMax_inv {h : Heap V} (hInv : Inv h) : Inv (removeMax h).2 := by
  obtain ⟨hlen, hcs, hLive, hOrd⟩ := hInv
  by_cases h0 : h.count = 0
  · rw [removeMax_snd_zero h0]
    exact ⟨hlen, hcs, hLive, hOrd⟩
  · by_cases h1 : h.count = 1
    · rw [removeMax_snd_one h1]
      refine ⟨by simpa using hlen, Nat.zero_le _, ?_, ?_⟩
      · intro j hj1 hj2
        have : j ≤ 0 := hj2
        omega
      · intro j hj1 hj2
        have : j ≤ 0 := hj2
        omega
    · rw [removeMax_snd_big (by omega)]
      have hc2 : 2 ≤ h.count := by omega
      have h1L : 1 < h.storage.length := by omega
      have hcL : h.count < h.storage.length := by omega
      have hsetlen : ((swap h.storage 1 h.count).set h.count none).length
          = h.storage.length := by
        rw [List.length_set, length_swap]
      have hLiveS : Live ((swap h.storage 1 h.count).set h.count none)
          (h.count - 1) := by
        intro j hj1 hj2
        rw [getSlot_set, if_neg (fun hh => by omega),
          getSlot_swap h.storage 1 h.count j h1L hcL,
          if_neg (by omega : ¬ h.count = j)]
        by_cases hj : 1 = j
        · rw [if_pos hj]
          exact hLive h.count (by omega) (le_refl _)
        · rw [if_neg hj]
          exact hLive j hj1 (by omega)
      have hpreS : SinkPre ((swap h.storage 1 h.count).set h.count none)
          (h.count - 1) 1 := by
        intro j hj1 hj2 hsub hne
        have hpj : parent j < j := Nat.div_lt_self (by omega) (by omega)
        have hp1 : 1 ≤ parent j := by
          unfold parent at hne ⊢
          omega
        have e1 : prioAt ((swap h.storage 1 h.count).set h.count none) j
            = prioAt h.storage j := by
          rw [prioAt_set_of_ne _ (by omega) _, prioAt_swap_of_ne _ (by omega) (by omega)]
        have e2 : prioAt ((swap h.storage 1 h.count).set h.count none) (parent j)
            = prioAt h.storage (parent j) := by
          rw [prioAt_set_of_ne _ (by omega) _, prioAt_swap_of_ne _ ?a1 (by omega)]
          case a1 =>
            intro hh
            exact hne (by omega)
        rw [e1, e2]
        exact hOrd j hj1 (by omega)
      rcases sink_correct h.count ((swap h.storage 1 h.count).set h.count none)
        (h.count - 1) 1 (by omega) hLiveS (le_refl _) (by omega) hpreS with
        ⟨ord₁, _⟩
      refine ⟨?_, show h.count - 1 ≤ h.size by omega, ?_, ?_⟩
      · show (sink ((swap h.storage 1 h.count).set h.count none)
          (h.count - 1) 1).length = h.size + 1
        rw [sink_length, hsetlen]
        exact hlen
      · exact live_sink (le_refl _) hLiveS
      · intro j hj1 hj2
        apply ord₁ j hj1 hj2
        apply inSub_one
        unfold parent
        omega

/-! ## `_float` and `_sink` permute the storage -/

theorem floatF_perm : ∀ (f : Nat) (L : Storage V) (i : Nat),
    (floatF f L i).Perm L := by
  intro f
  induction f with
  | zero => intro L i; exact List.Perm.refl L
  | succ f ih =>
    intro L i
    simp only [floatF]
    split
    · rename_i hg
      rcases floatF_in_range hg with ⟨h1, h2⟩
      exact ((ih _ i).trans (ih _ (parent i))).trans (swap_perm L h1 h2)
    · exact List.Perm.refl L

theorem sinkF_perm : ∀ (f : Nat) (L : Storage V) (count i : Nat),
    (sinkF f L count i).Perm L := by
  intro f
  induction f with
  | zero => intro L count i; exact List.Perm.refl L
  | succ f ih =>
    intro L count i
    simp only [sinkF]
    split
    · rename_i hg
      have hg' : sinkGuard L count i := hg
      split
      · rename_i hb
        rcases sink_branch1_facts hg' hb with ⟨_, _, _, hiL, hlL⟩
        exact ((ih _ count i).trans (ih _ count (left i))).trans (swap_perm L hiL hlL)
      · split
        · rename_i hb1 hb2
          rcases sink_branch2_facts hg' (Bool.of_not_eq_true hb1) hb2 with
            ⟨_, _, hiL, hrL⟩
          exact ((ih _ count i).trans (ih _ count (right i))).trans (swap_perm L hiL hrL)
        · exact List.Perm.refl L
    · exact List.Perm.refl L

theorem float_perm (L : Storage V) (i : Nat) : (float L i).Perm L :=
  floatF_perm _ L i

theorem sink_perm (L : Storage V) (count i : Nat) : (sink L count i).Perm L :=
  sinkF_perm _ L count i

/-! ## Characterisations and invariant preservation of `insert`/`applyOp` -/

theorem insert_ok_case {h : Heap V} (hlt : h.count < h.size)
    (p : Int) (e : Option V) :
    insert h p e = Except.ok
      ⟨float (h.storage.set (h.count + 1) (some ⟨some p, e⟩)) (h.count + 1),
       h.size, h.count + 1⟩ := by
  unfold insert
  rw [if_pos hlt]

theorem insert_err_case {h : Heap V} (hge : ¬ h.count < h.size)
    (p : Int) (e : Option V) :
    insert h p e = Except.error "Heap is already full" := by
  unfold insert
  rw [if_neg hge]

theorem applyOp_insert_lt {h : Heap V} (hlt : h.count < h.size)
    (p : Int) (e : Option V) :
    applyOp h (Op.insert p e)
      = ⟨float (h.storage.set (h.count + 1) (some ⟨some p, e⟩)) (h.count + 1),
         h.size, h.count + 1⟩ := by
  show (match insert h p e with
    | Except.ok h' => h'
    | Except.error _ => h) = _
  rw [insert_ok_case hlt]

theorem applyOp_insert_full {h : Heap V} (hge : ¬ h.count < h.size)
    (p : Int) (e : Option V) : applyOp h (Op.insert p e) = h := by
  show (match insert h p e with
    | Except.ok h' => h'
    | Except.error _ => h) = _
  rw [insert_err_case hge]

theorem applyOp_extract (h : Heap V) :
    applyOp h Op.extractMax = (removeMax h).2 := rfl

theorem applyOp_inv {h : Heap V} (hInv : Inv h) (op : Op V) :
    Inv (applyOp h op) := by
  cases op with
  | insert p e =>
    by_cases hlt : h.count < h.size
    · rw [applyOp_insert_lt hlt]
      exact insert_inv hInv hlt p e
    · rw [applyOp_insert_full hlt]
      exact hInv
  | extractMax =>
    rw [applyOp_extract]
    exact removeMax_inv hInv

theorem runOps_inv {h : Heap V} (hInv : Inv h) :
    ∀ ops : List (Op V), Inv (runOps h ops) := by
  intro ops
  induction ops generalizing h with
  | nil => exact hInv
  | cons op rest ih =>
    exact ih (applyOp_inv hInv op)

theorem applyOp_size (h : Heap V) (op : Op V) : (applyOp h op).size = h.size := by
  cases op with
  | insert p e =>
    by_cases hlt : h.count < h.size
    · rw [applyOp_insert_lt hlt]
    · rw [applyOp_insert_full hlt]
  | extractMax =>
    rw [applyOp_extract]
    exact removeMax_size h

/-! ## The live region as a list of slots -/

theorem liveSeg_getElem? (L : Storage V) (count j : Nat) :
    (liveSeg L count)[j]? = if j < count then L[1 + j]? else none := by
  unfold liveSeg
  rw [List.getElem?_take, List.getElem?_drop]

theorem liveSeg_length {L : Storage V} {count : Nat} (hc : count < L.length) :
    (liveSeg L count).length = count := by
  unfold liveSeg
  rw [List.length_take, List.length_drop]
  omega

theorem getElem?_eq_some_getSlot {L : Storage V} {j : Nat} (h : j < L.length) :
    L[j]? = some (getSlot L j) := by
  rw [List.getElem?_eq_getElem h, getSlot_eq_getElem h]

/-- Permutation of the live segment follows from a permutation of the full
storage that leaves everything outside `1..count` untouched. -/
theorem liveSeg_perm_of (L M : Storage V) (count : Nat)
    (hperm : M.Perm L) (hc : count < L.length)
    (hout : ∀ j, j = 0 ∨ count < j → getSlot M j = getSlot L j) :
    (liveSeg M count).Perm (liveSeg L count) := by
  have hlen : M.length = L.length := hperm.length_eq
  have hL1 : 0 < L.length := by omega
  have hdecL : L = L.take 1 ++ (liveSeg L count ++ L.drop (1 + count)) := by
    conv_lhs => rw [← List.take_append_drop 1 L]
    congr 1
    conv_lhs => rw [← List.take_append_drop count (L.drop 1)]
    unfold liveSeg
    rw [List.drop_drop]
  have hdecM : M = M.take 1 ++ (liveSeg M count ++ M.drop (1 + count)) := by
    conv_lhs => rw [← List.take_append_drop 1 M]
    congr 1
    conv_lhs => rw [← List.take_append_drop count (M.drop 1)]
    unfold liveSeg
    rw [List.drop_drop]
  have hpre : M.take 1 = L.take 1 := by
    apply List.ext_getElem?
    intro n
    rw [List.getElem?_take, List.getElem?_take]
    by_cases hn : n < 1
    · have hn0 : n = 0 := by omega
      subst hn0
      rw [if_pos (by omega), if_pos (by omega),
        getElem?_eq_some_getSlot (by omega), getElem?_eq_some_getSlot hL1,
        hout 0 (Or.inl rfl)]
    · rw [if_neg hn, if_neg hn]
  have hsuf : M.drop (1 + count) = L.drop (1 + count) := by
    apply List.ext_getElem?
    intro n
    rw [List.getElem?_drop, List.getElem?_drop]
    by_cases hn : 1 + count + n < L.length
    · rw [getElem?_eq_some_getSlot (by omega), getElem?_eq_some_getSlot hn,
        hout (1 + count + n) (Or.inr (by omega))]
    · rw [List.getElem?_eq_none (by omega), List.getElem?_eq_none (by omega)]
  have hstep : (M.take 1 ++ (liveSeg M count ++ M.drop (1 + count))).Perm
      (L.take 1 ++ (liveSeg L count ++ L.drop (1 + count))) := by
    rw [← hdecM, ← hdecL]
    exact hperm
  rw [hpre, hsuf] at hstep
  exact (List.perm_append_right_iff _).1 ((List.perm_append_left_iff _).1 hstep)

/-- Effect of a successful insert on the live records. -/
theorem liveSeg_insert {h : Heap V} (hInv : Inv h) (hlt : h.count < h.size)
    (p : Int) (e : Option V) :
    (liveSlots (applyOp h (Op.insert p e))).Perm
      (liveSlots h ++ [some ⟨some p, e⟩]) := by
  obtain ⟨hlen, hcs, hLive, hOrd⟩ := hInv
  rw [applyOp_insert_lt hlt]
  have hc1L : h.count + 1 < h.storage.length := by omega
  have hsetlen : (h.storage.set (h.count + 1) (some ⟨some p, e⟩)).length
      = h.storage.length := by
    rw [List.length_set]
  have step1 : (liveSeg (float (h.storage.set (h.count + 1) (some ⟨some p, e⟩))
      (h.count + 1)) (h.count + 1)).Perm
      (liveSeg (h.storage.set (h.count + 1) (some ⟨some p, e⟩)) (h.count + 1)) := by
    apply liveSeg_perm_of
    · exact float_perm _ _
    · omega
    · intro j hj
      exact float_untouched _ _ j hj
  have step2 : liveSeg (h.storage.set (h.count + 1) (some ⟨some p, e⟩)) (h.count + 1)
      = liveSeg h.storage h.count ++ [some ⟨some p, e⟩] := by
    apply List.ext_getElem?
    intro n
    rw [liveSeg_getElem?]
    by_cases hn : n < h.count
    · rw [if_pos (by omega), List.getElem?_append_left (by rw [liveSeg_length (by omega)]; omega),
        liveSeg_getElem?, if_pos hn, List.getElem?_set, if_neg (by omega)]
    · by_cases hn2 : n = h.count
      · subst hn2
        rw [if_pos (by omega),
          List.getElem?_append_right (by rw [liveSeg_length (by omega)]),
          liveSeg_length (by omega), List.getElem?_set, if_pos (by omega),
          if_pos (by omega)]
        simp
      · rw [if_neg (by omega), List.getElem?_eq_none]
        rw [List.length_append, liveSeg_length (by omega)]
        simp
        omega
  exact step1.trans (step2 ▸ List.Perm.refl _)

theorem liveSeg_one {L : Storage V} (h1L : 1 < L.length) :
    liveSeg L 1 = [getSlot L 1] := by
  apply List.ext_getElem?
  intro n
  rw [liveSeg_getElem?]
  by_cases hn : n < 1
  · have hn0 : n = 0 := by omega
    subst hn0
    rw [if_pos (by omega), getElem?_eq_some_getSlot h1L]
    rfl
  · rw [if_neg hn, List.getElem?_eq_none (by simp; omega)]

/-- Effect of `removeMax` on the live records when the heap is non-empty:
the old root leaves, everything else stays (as a multiset). -/
theorem liveSeg_removeMax {h : Heap V} (hInv : Inv h) (hc1 : 1 ≤ h.count) :
    (liveSlots h).Perm (getSlot h.storage 1 :: liveSlots (removeMax h).2) := by
  obtain ⟨hlen, hcs, hLive, hOrd⟩ := hInv
  have h1L : 1 < h.storage.length := by omega
  by_cases h1 : h.count = 1
  · rw [removeMax_snd_one h1]
    show (liveSeg h.storage h.count).Perm
      (getSlot h.storage 1 :: liveSeg (h.storage.set 1 none) 0)
    rw [h1, liveSeg_one h1L, show liveSeg (h.storage.set 1 none) 0 = [] from rfl]
  · have hc2 : 2 ≤ h.count := by omega
    rw [removeMax_snd_big hc2]
    have hcL : h.count < h.storage.length := by omega
    have hsetlen : ((swap h.storage 1 h.count).set h.count none).length
        = h.storage.length := by
      rw [List.length_set, length_swap]
    have step1 : (liveSeg (sink ((swap h.storage 1 h.count).set h.count none)
        (h.count - 1) 1) (h.count - 1)).Perm
        (liveSeg ((swap h.storage 1 h.count).set h.count none) (h.count - 1)) := by
      apply liveSeg_perm_of
      · exact sink_perm _ _ _
      · omega
      · intro j hj
        apply sink_untouched _ _ _ j (le_refl 1)
        rcases hj with hj | hj
        · exact Or.inl hj
        · exact Or.inr (Or.inl hj)
    have step2 : liveSeg ((swap h.storage 1 h.count).set h.count none) (h.count - 1)
        = (liveSeg h.storage (h.count - 1)).set 0 (getSlot h.storage h.count) := by
      apply List.ext_getElem?
      intro n
      have hseglen : (liveSeg h.storage (h.count - 1)).length = h.count - 1 :=
        liveSeg_length (by omega)
      by_cases hn : n < h.count - 1
      case pos =>
        have hlhs : (liveSeg ((swap h.storage 1 h.count).set h.count none)
            (h.count - 1))[n]?
            = some (getSlot ((swap h.storage 1 h.count).set h.count none) (1 + n)) := by
          rw [liveSeg_getElem?, if_pos hn,
            getElem?_eq_some_getSlot (by rw [hsetlen]; omega)]
        rw [hlhs]
        have hslot : getSlot ((swap h.storage 1 h.count).set h.count none) (1 + n)
            = if n = 0 then getSlot h.storage h.count
              else getSlot h.storage (1 + n) := by
          rw [getSlot_set, if_neg (by omega)]
          by_cases hn0 : n = 0
          · rw [if_pos hn0, hn0, getSlot_swap _ 1 h.count 1 h1L hcL,
              if_neg (by omega : ¬ h.count = 1), if_pos rfl]
          · rw [if_neg hn0, getSlot_swap_of_ne _ (by omega) (by omega)]
        rw [hslot]
        have hrhs : ((liveSeg h.storage (h.count - 1)).set 0
            (getSlot h.storage h.count))[n]?
            = if n = 0 then some (getSlot h.storage h.count)
              else some (getSlot h.storage (1 + n)) := by
          rw [List.getElem?_set]
          by_cases hn0 : n = 0
          · rw [if_pos hn0.symm, if_pos (by omega), if_pos hn0]
          · rw [if_neg (fun hh => hn0 hh.symm), if_neg hn0, liveSeg_getElem?,
              if_pos hn, getElem?_eq_some_getSlot (by omega)]
        rw [hrhs]
        by_cases hn0 : n = 0
        · rw [if_pos hn0, if_pos hn0]
        · rw [if_neg hn0, if_neg hn0]
      case neg =>
        rw [liveSeg_getElem?, if_neg hn, List.getElem?_eq_none]
        rw [List.length_set, hseglen]
        omega
    have step3 : liveSeg h.storage h.count
        = liveSeg h.storage (h.count - 1) ++ [getSlot h.storage h.count] := by
      apply List.ext_getElem?
      intro n
      rw [liveSeg_getElem?]
      have hseglen : (liveSeg h.storage (h.count - 1)).length = h.count - 1 :=
        liveSeg_length (by omega)
      by_cases hn : n < h.count - 1
      · rw [if_pos (by omega), List.getElem?_append_left (by omega),
          liveSeg_getElem?, if_pos hn]
      · by_cases hn2 : n = h.count - 1
        · subst hn2
          rw [if_pos (by omega), List.getElem?_append_right (by omega), hseglen,
            getElem?_eq_some_getSlot (by omega)]
          have he : 1 + (h.count - 1) = h.count := by omega
          rw [he]
          simp
        · rw [if_neg (by omega), List.getElem?_eq_none]
          rw [List.length_append, hseglen]
          simp
          omega
    obtain ⟨y, T, hyT⟩ : ∃ y T, liveSeg h.storage (h.count - 1) = y :: T := by
      cases hseg : liveSeg h.storage (h.count - 1) with
      | nil =>
        exfalso
        have := liveSeg_length (show h.count - 1 < h.storage.length by omega)
        rw [hseg] at this
        simp at this
        omega
      | cons y T => exact ⟨y, T, rfl⟩
    have hy : y = getSlot h.storage 1 := by
      have hh := liveSeg_getElem? h.storage (h.count - 1) 0
      rw [hyT, if_pos (by omega), getElem?_eq_some_getSlot h1L] at hh
      simpa using hh
    have htail : (liveSeg (sink ((swap h.storage 1 h.count).set h.count none)
        (h.count - 1) 1) (h.count - 1)).Perm
        (getSlot h.storage h.count :: T) := by
      apply step1.trans
      rw [step2, hyT]
      exact List.Perm.refl _
    show (liveSeg h.storage h.count).Perm _
    rw [step3, hyT,
      show ((y :: T) ++ [getSlot h.storage h.count])
        = y :: (T ++ [getSlot h.storage h.count]) from by simp, hy]
    exact ((List.perm_append_singleton _ _).trans htail.symm).cons _

/-- In a heap-ordered live region, the root priority dominates. -/
theorem root_max {h : Heap V} (hInv : Inv h) :
    ∀ j, 1 ≤ j → j ≤ h.count → pLe (prioAt h.storage j) (prioAt h.storage 1) := by
  obtain ⟨hlen, hcs, hLive, hOrd⟩ := hInv
  intro j hj1 hj2
  exact sub_dominance hLive (le_refl 1) (fun j' h1 h2 _ => hOrd j' h1 h2) j
    (inSub_one j hj1) hj2

/-- After a `removeMax` from a heap with at least two records, the new root
priority is bounded by the old root priority. -/
theorem removeMax_root_le {h : Heap V} (hInv : Inv h) (h2 : 2 ≤ h.count) :
    pLe (prioAt (removeMax h).2.storage 1) (prioAt h.storage 1) := by
  have hlen := hInv.1
  have hcs := hInv.2.1
  rw [removeMax_snd_big h2]
  rcases sink_mapsTo ((swap h.storage 1 h.count).set h.count none) (h.count - 1) 1
    (le_refl 1) 1 (le_refl 1) (by omega) with ⟨k, hk1, hk2, he⟩
  have h1L : 1 < h.storage.length := by omega
  have hcL : h.count < h.storage.length := by omega
  have hSk : getSlot ((swap h.storage 1 h.count).set h.count none) k
      = if 1 = k then getSlot h.storage h.count else getSlot h.storage k := by
    rw [getSlot_set, if_neg (fun hh => by omega), getSlot_swap _ 1 h.count k h1L hcL,
      if_neg (by omega : ¬ h.count = k)]
  show pLe (prioAt (sink ((swap h.storage 1 h.count).set h.count none)
    (h.count - 1) 1) 1) (prioAt h.storage 1)
  unfold prioAt
  rw [he, hSk]
  by_cases hk : 1 = k
  · rw [if_pos hk]
    exact root_max hInv h.count (by omega) (le_refl _)
  · rw [if_neg hk]
    exact root_max hInv k hk1 (by omega)

/-! ## Draining and bulk insertion -/

theorem drainH_count : ∀ (n : Nat) (h : Heap V),
    (drainH n h).count = h.count - n := by
  intro n
  induction n with
  | zero => intro h; rfl
  | succ n ih =>
    intro h
    show (drainH n (removeMax h).2).count = _
    rw [ih, removeMax_count]
    omega

/-- The pair recorded by one `extractMax` from a non-empty well-formed heap
is exactly the root record's (priority, element) content. -/
theorem extract_pair {h : Heap V} (hInv : Inv h) (hc1 : 1 ≤ h.count) :
    (prioAt h.storage 1, (removeMax h).1) = recOf (getSlot h.storage 1) := by
  unfold recOf
  have hsnd : (removeMax h).1 = slotElem (getSlot h.storage 1) := by
    by_cases h1 : h.count = 1
    · rw [removeMax_fst_one h1]
    · have hc2 : 2 ≤ h.count := by omega
      have hlen := hInv.1
      have hcs := hInv.2.1
      rw [removeMax_fst_big hc2,
        getSlot_swap _ 1 h.count h.count (by omega) (by omega), if_pos rfl]
  rw [hsnd]
  rfl

/-- Priorities recorded by successive `extractMax` calls are non-increasing. -/
theorem drain_chain : ∀ (n : Nat) (h : Heap V), Inv h → n ≤ h.count →
    List.Chain' (fun a b => pLe b.1 a.1) (drainPE n h) := by
  intro n
  induction n with
  | zero => intro h _ _; exact List.chain'_nil
  | succ n ih =>
    intro h hInv hn
    show List.Chain' _
      ((prioAt h.storage 1, (removeMax h).1) :: drainPE n (removeMax h).2)
    rw [List.chain'_cons']
    constructor
    · intro b hb
      cases n with
      | zero => simp [drainPE] at hb
      | succ m =>
        have hb' : b = (prioAt (removeMax h).2.storage 1,
            (removeMax (removeMax h).2).1) := by
          simp [drainPE] at hb
          exact hb.symm
        rw [hb']
        show pLe (prioAt (removeMax h).2.storage 1) (prioAt h.storage 1)
        exact removeMax_root_le hInv (by omega)
    · exact ih (removeMax h).2 (removeMax_inv hInv) (by rw [removeMax_count]; omega)

/-- Draining the whole heap yields exactly the live records, as a multiset. -/
theorem drain_perm : ∀ (c : Nat) (h : Heap V), Inv h → h.count = c →
    (drainPE c h).Perm ((liveSlots h).map recOf) := by
  intro c
  induction c with
  | zero =>
    intro h hInv hc
    rw [show liveSlots h = [] from by unfold liveSlots; rw [hc]; rfl]
    exact List.Perm.refl _
  | succ c ih =>
    intro h hInv hc
    show ((prioAt h.storage 1, (removeMax h).1) :: drainPE c (removeMax h).2).Perm _
    have hpair := extract_pair hInv (by omega)
    have hseg := liveSeg_removeMax hInv (by omega)
    have hih := ih (removeMax h).2 (removeMax_inv hInv) (by rw [removeMax_count]; omega)
    have hmap : ((liveSlots h).map recOf).Perm
        (recOf (getSlot h.storage 1) :: (liveSlots (removeMax h).2).map recOf) := by
      simpa using hseg.map recOf
    apply List.Perm.trans _ hmap.symm
    rw [hpair]
    exact hih.cons _

/-- Bulk insertion of `ps` into a heap with room for all of them. -/
theorem insRun_props : ∀ (ps : List (Int × Option V)) (h : Heap V), Inv h →
    h.count + ps.length ≤ h.size →
    Inv (insRun h ps) ∧ (insRun h ps).count = h.count + ps.length ∧
    (insRun h ps).size = h.size ∧
    (liveSlots (insRun h ps)).Perm
      (liveSlots h ++ ps.map (fun q => some ⟨some q.1, q.2⟩)) := by
  intro ps
  induction ps with
  | nil =>
    intro h hInv _
    exact ⟨hInv, by simp [insRun], by rfl, by simp [insRun]⟩
  | cons q rest ih =>
    intro h hInv hroom
    have hlt : h.count < h.size := by
      simp at hroom
      omega
    have h1 := applyOp_inv hInv (Op.insert q.1 q.2)
    have hcount : (applyOp h (Op.insert q.1 q.2)).count = h.count + 1 := by
      rw [applyOp_insert_lt hlt]
    have hsize : (applyOp h (Op.insert q.1 q.2)).size = h.size :=
      applyOp_size h _
    have hroom' : (applyOp h (Op.insert q.1 q.2)).count + rest.length
        ≤ (applyOp h (Op.insert q.1 q.2)).size := by
      rw [hcount, hsize]
      simp at hroom
      omega
    rcases ih (applyOp h (Op.insert q.1 q.2)) h1 hroom' with ⟨i1, i2, i3, i4⟩
    refine ⟨i1, ?_, ?_, ?_⟩
    · show (insRun (applyOp h (Op.insert q.1 q.2)) rest).count = _
      rw [i2, hcount]
      simp
      omega
    · show (insRun (applyOp h (Op.insert q.1 q.2)) rest).size = _
      rw [i3, hsize]
    · show (liveSlots (insRun (applyOp h (Op.insert q.1 q.2)) rest)).Perm _
      apply i4.trans
      have hstep := liveSeg_insert hInv hlt q.1 q.2
      have := hstep.append_right (rest.map (fun q => some ⟨some q.1, q.2⟩))
      apply this.trans
      rw [List.append_assoc]
      rfl

/-! ## The claims -/

/-- Claim C1 (code bug, evaluation at the failing input): `heapsort` on the
1-indexed array with priorities `[1, 2, 3, 4, 5, 6]` leaves the priorities
in order `[1, 2, 3, 4, 6, 5]` — NOT ascending (6 precedes 5), contradicting
the claim that `heapsort` sorts every array ascending by priority.  (The
root cause is `_buildheap`'s ascending loop, which fails to establish the
heap invariant; see C2.) -/
theorem claim_C1_heapsort_unsorted :
    (heapsort exArr6).map slotPrio
      = [none, some 1, some 2, some 3, some 4, some 6, some 5] := by
  decide

/-- Claim C2 (code bug, evaluation at the failing input): constructing a
heap from the array with priorities `[1, 2, 3, 4, 5, 6]` sets
`size = count = 6` but does NOT establish the heap-order invariant: the
node at index 3 ends with priority 6 while its parent (the root, index 1)
has priority 5, i.e. `storage[parent 3].priority < storage[3].priority`. -/
theorem claim_C2_fromArray_not_heap :
    (fromArray exArr6).size = 6 ∧ (fromArray exArr6).count = 6 ∧
    parent 3 = 1 ∧
    prioAt (fromArray exArr6).storage 1 = some 5 ∧
    prioAt (fromArray exArr6).storage 3 = some 6 ∧
    jsLt (prioAt (fromArray exArr6).storage (parent 3))
      (prioAt (fromArray exArr6).storage 3) = true := by
  refine ⟨?_, ?_, rfl, ?_, ?_, ?_⟩ <;> decide

/-- Claim C3 (confirmed): for every sequence of insert/extractMax
operations from an empty heap that never attempts an insert while
`count = capacity`, after each operation (i.e. after every prefix of the
sequence) every live slot holds a record with a defined priority and the
heap-order invariant `storage[parent i].priority >= storage[i].priority`
holds for every `1 < i ≤ count`. -/
theorem claim_C3 (V : Type) (cap : Nat) (ops : List (Op V))
    (_hno : ∀ k, k < ops.length → isIns (ops.getD k Op.extractMax) = true →
      (runOps (emptyHeap V cap) (ops.take k)).count < cap) :
    ∀ k, k ≤ ops.length →
      Live (runOps (emptyHeap V cap) (ops.take k)).storage
        (runOps (emptyHeap V cap) (ops.take k)).count ∧
      HeapOrd (runOps (emptyHeap V cap) (ops.take k)).storage
        (runOps (emptyHeap V cap) (ops.take k)).count := by
  intro k _
  exact ⟨(runOps_inv (inv_emptyHeap V cap) (ops.take k)).2.2.1,
    (runOps_inv (inv_emptyHeap V cap) (ops.take k)).2.2.2⟩

theorem claim_C3_witness :
    (∀ k, k < ([Op.insert 1 none, Op.insert 2 none, Op.extractMax] :
        List (Op Unit)).length →
      isIns (([Op.insert 1 none, Op.insert 2 none, Op.extractMax] :
        List (Op Unit)).getD k Op.extractMax) = true →
      (runOps (emptyHeap Unit 2) (([Op.insert 1 none, Op.insert 2 none,
        Op.extractMax] : List (Op Unit)).take k)).count < 2) ∧
    (Live (runOps (emptyHeap Unit 2) (([Op.insert 1 none, Op.insert 2 none,
        Op.extractMax] : List (Op Unit)).take 3)).storage
      (runOps (emptyHeap Unit 2) (([Op.insert 1 none, Op.insert 2 none,
        Op.extractMax] : List (Op Unit)).take 3)).count ∧
    HeapOrd (runOps (emptyHeap Unit 2) (([Op.insert 1 none, Op.insert 2 none,
        Op.extractMax] : List (Op Unit)).take 3)).storage
      (runOps (emptyHeap Unit 2) (([Op.insert 1 none, Op.insert 2 none,
        Op.extractMax] : List (Op Unit)).take 3)).count) :=
  ⟨by decide, claim_C3 Unit 2 _ (by decide) 3 (by decide)⟩

/-- Claim C4 (confirmed): for every `n ≤ capacity` insertions of arbitrary
(priority, element) pairs into an initially empty heap, the `n` subsequent
extractMax calls return exactly the inserted records (as a multiset of
(priority, element) pairs) in non-increasing priority order, and the
`(n+1)`-th extractMax returns the empty sentinel (`undefined`). -/
theorem claim_C4 (V : Type) (cap : Nat) (ps : List (Int × Option V))
    (hlen : ps.length ≤ cap) :
    List.Chain' (fun a b => pLe b.1 a.1)
      (drainPE ps.length (insRun (emptyHeap V cap) ps)) ∧
    (drainPE ps.length (insRun (emptyHeap V cap) ps)).Perm
      (ps.map (fun q => (some q.1, q.2))) ∧
    (removeMax (drainH ps.length (insRun (emptyHeap V cap) ps))).1 = none := by
  have h0 := inv_emptyHeap V cap
  have hroom : (emptyHeap V cap).count + ps.length ≤ (emptyHeap V cap).size := by
    show 0 + ps.length ≤ cap
    omega
  rcases insRun_props ps (emptyHeap V cap) h0 hroom with ⟨hInv, hcount, hsize, hperm⟩
  have hcount' : (insRun (emptyHeap V cap) ps).count = ps.length := by
    rw [hcount]
    show 0 + ps.length = ps.length
    omega
  refine ⟨?_, ?_, ?_⟩
  · exact drain_chain ps.length _ hInv (by omega)
  · have hd := drain_perm ps.length _ hInv hcount'
    apply hd.trans
    have hm : ((liveSlots (insRun (emptyHeap V cap) ps)).map recOf).Perm
        (((liveSlots (emptyHeap V cap)
          ++ ps.map (fun q => (some (Rcd.mk (some q.1) q.2) : Slot V))).map
            recOf)) :=
      hperm.map recOf
    apply hm.trans
    rw [show liveSlots (emptyHeap V cap) = [] from rfl, List.nil_append,
      List.map_map]
    exact List.Perm.refl _
  · have hdc := drainH_count ps.length (insRun (emptyHeap V cap) ps)
    rw [hcount'] at hdc
    exact removeMax_fst_zero (by omega)

theorem claim_C4_witness :
    List.Chain' (fun a b => pLe b.1 a.1)
      (drainPE ([((5 : Int), (none : Option Unit)), (1, none)]).length
        (insRun (emptyHeap Unit 2) [(5, none), (1, none)])) ∧
    (drainPE ([((5 : Int), (none : Option Unit)), (1, none)]).length
      (insRun (emptyHeap Unit 2) [(5, none), (1, none)])).Perm
      (([((5 : Int), (none : Option Unit)), (1, none)]).map
        (fun q => (some q.1, q.2))) ∧
    (removeMax (drainH ([((5 : Int), (none : Option Unit)), (1, none)]).length
      (insRun (emptyHeap Unit 2) [(5, none), (1, none)]))).1 = none :=
  claim_C4 Unit 2 [(5, none), (1, none)] (by decide)

/-- Claim C5 (confirmed): inserting exactly `capacity` records into an
initially empty heap succeeds at every step; the `(capacity+1)`-th insert
fails with the error `"Heap is already full"`; `count()` reports exactly
`capacity` at that point; and this error is raised exactly when
`count = capacity` and its message is the only one `insert` ever raises
(the other operations of the embedding are total functions and never
raise). -/
theorem claim_C5 (V : Type) (cap : Nat) (ps : List (Int × Option V))
    (hlen : ps.length = cap) (p : Int) (e : Option V) :
    (∀ k, k < cap → ∃ h', insert (insRun (emptyHeap V cap) (ps.take k))
      (ps.getD k (0, none)).1 (ps.getD k (0, none)).2 = Except.ok h') ∧
    countFn (insRun (emptyHeap V cap) ps) = cap ∧
    insert (insRun (emptyHeap V cap) ps) p e
      = Except.error "Heap is already full" ∧
    (∀ h : Heap V, h.count ≤ h.size → ∀ p' e',
      ((∃ msg, insert h p' e' = Except.error msg) ↔ h.count = h.size) ∧
      (∀ msg, insert h p' e' = Except.error msg →
        msg = "Heap is already full")) := by
  have h0 := inv_emptyHeap V cap
  have hfull : (insRun (emptyHeap V cap) ps).count = cap
      ∧ (insRun (emptyHeap V cap) ps).size = cap := by
    rcases insRun_props ps (emptyHeap V cap) h0
      (by show 0 + ps.length ≤ cap; omega) with ⟨_, hc, hs, _⟩
    constructor
    · rw [hc]
      show 0 + ps.length = cap
      omega
    · rw [hs]
      rfl
  refine ⟨?_, ?_, ?_, ?_⟩
  · intro k hk
    have hkl : (ps.take k).length = k := by
      rw [List.length_take]
      omega
    rcases insRun_props (ps.take k) (emptyHeap V cap) h0
      (by show 0 + (ps.take k).length ≤ cap; omega) with ⟨_, hc, hs, _⟩
    have hlt : (insRun (emptyHeap V cap) (ps.take k)).count
        < (insRun (emptyHeap V cap) (ps.take k)).size := by
      rw [hc, hs, hkl]
      show 0 + k < cap
      omega
    exact ⟨_, insert_ok_case hlt _ _⟩
  · exact hfull.1
  · exact insert_err_case (by omega) p e
  · intro h hcs p' e'
    constructor
    · constructor
      · rintro ⟨msg, hmsg⟩
        by_cases hlt : h.count < h.size
        · rw [insert_ok_case hlt] at hmsg
          exact Except.noConfusion hmsg
        · omega
      · intro heq
        exact ⟨_, insert_err_case (by omega) p' e'⟩
    · intro msg hmsg
      by_cases hlt : h.count < h.size
      · rw [insert_ok_case hlt] at hmsg
        exact Except.noConfusion hmsg
      · rw [insert_err_case hlt] at hmsg
        injection hmsg with hm
        exact hm.symm

theorem claim_C5_witness :
    (∀ k, k < 1 → ∃ h', insert (insRun (emptyHeap Unit 1)
      (([((7 : Int), (none : Option Unit))]).take k))
      (([((7 : Int), (none : Option Unit))]).getD k (0, none)).1
      (([((7 : Int), (none : Option Unit))]).getD k (0, none)).2
      = Except.ok h') ∧
    countFn (insRun (emptyHeap Unit 1) [(7, none)]) = 1 ∧
    insert (insRun (emptyHeap Unit 1) [(7, none)]) 9 none
      = Except.error "Heap is already full" ∧
    (∀ h : Heap Unit, h.count ≤ h.size → ∀ p' e',
      ((∃ msg, insert h p' e' = Except.error msg) ↔ h.count = h.size) ∧
      (∀ msg, insert h p' e' = Except.error msg →
        msg = "Heap is already full")) :=
  claim_C5 Unit 1 [(7, none)] (by decide) 9 none

/-- Claim C6, counterexample: at the concrete state with priorities
`[1, 2, 3]` (`count = 3`), one step of `_sink` at the root swaps with the
LEFT child (priority 2) even though the in-range right child has the
strictly larger priority 3 — contradicting the claim that the node is
always swapped with whichever child has the larger priority (left chosen
only when the right child's priority is not greater than the left's). -/
theorem claim_C6_counterexample :
    sinkChoice exArr3 3 1 = some (left 1) ∧
    right 1 ≤ 3 ∧
    jsLt (prioAt exArr3 (left 1)) (prioAt exArr3 (right 1)) = true := by
  decide

/-- Claim C6, amended: in the sink-down restoration, at each step where
some in-range child is strictly greater than the node, the node is swapped
with the LEFT child whenever the left child alone is strictly greater
(regardless of the right child's priority); only otherwise is it swapped
with the right child (in which case the right child is indeed the larger);
and the descent stops when the node is not smaller than any in-range
child.  `sinkChoice` is the selection the loop body makes; the first
conjunct ties it to `sink` itself. -/
theorem claim_C6_amended (V : Type) (L : Storage V) (count i : Nat) :
    (sink L count i = match sinkChoice L count i with
      | none => L
      | some c => sink (sink (swap L i c) count c) count i) ∧
    (sinkChoice L count i = none ↔ ¬ sinkGuard L count i) ∧
    (∀ c, sinkChoice L count i = some c →
      c ≤ count ∧ jsLt (prioAt L i) (prioAt L c) = true ∧
      (c = left i ∨ (c = right i ∧
        jsLt (prioAt L i) (prioAt L (left i)) = false))) := by
  unfold sinkChoice
  by_cases hg : sinkGuard L count i
  case neg =>
    rw [if_neg hg]
    refine ⟨?_, by simp [hg], by intro c hc; exact Option.noConfusion hc⟩
    rw [sink_eq L count i, if_neg hg]
  case pos =>
    rw [if_pos hg]
    by_cases hb : jsLt (prioAt L i) (prioAt L (left i)) = true
    · rw [if_pos hb]
      refine ⟨?_, by simp [hg], ?_⟩
      · rw [sink_eq L count i, if_pos hg, if_pos hb]
      · intro c hc
        injection hc with hc
        subst hc
        rcases sink_branch1_facts hg hb with ⟨_, _, hlc, _, _⟩
        exact ⟨hlc, hb, Or.inl rfl⟩
    · rw [if_neg hb]
      by_cases hb2 : jsLt (prioAt L i) (prioAt L (right i)) = true
      · rw [if_pos hb2]
        refine ⟨?_, by simp [hg], ?_⟩
        · rw [sink_eq L count i, if_pos hg, if_neg hb, if_pos hb2]
        · intro c hc
          injection hc with hc
          subst hc
          rcases sink_branch2_facts hg (Bool.of_not_eq_true hb) hb2 with
            ⟨_, hrc, _, _⟩
          exact ⟨hrc, hb2, Or.inr ⟨rfl, Bool.of_not_eq_true hb⟩⟩
      · exfalso
        rcases hg with ⟨_, h⟩ | ⟨_, h⟩
        · exact hb h
        · exact hb2 h

theorem claim_C6_amended_witness :
    sink exArr3 3 1 = (match sinkChoice exArr3 3 1 with
      | none => exArr3
      | some c => sink (sink (swap exArr3 1 c) 3 c) 3 1) ∧
    (sinkChoice exArr3 3 1 = none ↔ ¬ sinkGuard exArr3 3 1) ∧
    (∀ c, sinkChoice exArr3 3 1 = some c →
      c ≤ 3 ∧ jsLt (prioAt exArr3 1) (prioAt exArr3 c) = true ∧
      (c = left 1 ∨ (c = right 1 ∧
        jsLt (prioAt exArr3 1) (prioAt exArr3 (left 1)) = false))) :=
  claim_C6_amended Unit exArr3 3 1

/-- Claim C7 (code bug, evaluation at the failing input): on the six
records with priorities `[1..6]`, constructing the heap from the array and
draining it yields priority sequence `[5, 6, 4, 3, 2, 1]`, whereas
inserting the same records one by one into an empty heap of equal capacity
and draining yields `[6, 5, 4, 3, 2, 1]` — the two sequences differ (and
the from-array one is not even descending), contradicting the claimed
equivalence. -/
theorem claim_C7_construction_differs :
    (drainPE 6 (fromArray exArr6)).map Prod.fst
      = [some 5, some 6, some 4, some 3, some 2, some 1] ∧
    (drainPE 6 (insRun (emptyHeap Unit 6) exPairs6)).map Prod.fst
      = [some 6, some 5, some 4, some 3, some 2, some 1] := by
  constructor <;> decide

/-- Claim C8 (confirmed): both invariant-restoring routines terminate on
every input state: the fuelled computations `floatF`/`sinkF` are stable
once the fuel passes the computable bounds `floatMeas`/`sinkMeas`, and
`float`/`sink` are their common value (satisfying the literal JS recursions
`float_eq`/`sink_eq`).  Float-up returns its input unchanged at the root or
when the parent is not strictly smaller; sink-down returns its input
unchanged when no in-range child is strictly greater. -/
theorem claim_C8 (V : Type) :
    (∀ (L : Storage V) (i : Nat),
      parent i = 0 ∨ jsGt (prioAt L i) (prioAt L (parent i)) = false →
      float L i = L) ∧
    (∀ (L : Storage V) (count i : Nat), ¬ sinkGuard L count i →
      sink L count i = L) ∧
    (∀ (L : Storage V) (i F : Nat), floatMeas L i < F →
      floatF F L i = float L i) ∧
    (∀ (L : Storage V) (count i F : Nat), sinkMeas L count i < F →
      sinkF F L count i = sink L count i) := by
  refine ⟨?_, ?_, ?_, ?_⟩
  · intro L i hstop
    rw [float_eq, if_neg]
    rintro ⟨h1, h2⟩
    rcases hstop with h | h
    · exact h1 h
    · rw [h] at h2
      exact Bool.noConfusion h2
  · intro L count i hng
    rw [sink_eq, if_neg hng]
  · intro L i F hF
    exact floatF_stable (floatMeas L i) L i F (floatMeas L i + 1)
      (le_refl _) hF (by omega)
  · intro L count i F hF
    exact sinkF_stable (sinkMeas L count i) L count i F (sinkMeas L count i + 1)
      (le_refl _) hF (by omega)

theorem claim_C8_witness :
    float exArr3 1 = exArr3 ∧ sink exArr3 0 1 = exArr3 ∧
    floatF 50 exArr3 1 = float exArr3 1 ∧ sinkF 50 exArr3 0 1 = sink exArr3 0 1 :=
  ⟨(claim_C8 Unit).1 exArr3 1 (Or.inl (by decide)),
   (claim_C8 Unit).2.1 exArr3 0 1 (by decide),
   (claim_C8 Unit).2.2.1 exArr3 1 50 (by decide),
   (claim_C8 Unit).2.2.2 exArr3 0 1 50 (by decide)⟩

/-- Claim C9 (confirmed): `insert` on a full heap (`count = size`) raises
the capacity-exceeded error and changes nothing: the state after the
failed operation is exactly the state before (same count, capacity, and
storage — the check precedes any mutation in the source). -/
theorem claim_C9 (V : Type) (h : Heap V) (p : Int) (e : Option V)
    (hfull : h.count = h.size) :
    insert h p e = Except.error "Heap is already full" ∧
    applyOp h (Op.insert p e) = h := by
  have hge : ¬ h.count < h.size := by omega
  exact ⟨insert_err_case hge p e, applyOp_insert_full hge p e⟩

theorem claim_C9_witness :
    insert (emptyHeap Unit 0) 5 none = Except.error "Heap is already full" ∧
    applyOp (emptyHeap Unit 0) (Op.insert 5 none) = emptyHeap Unit 0 :=
  claim_C9 Unit (emptyHeap Unit 0) 5 none rfl

/-- Claim C10 (confirmed): the empty sentinel returned by `extractMax` on
an empty heap is JS `undefined` (`none`), which is also the value returned
when the extracted root record's stored element is itself `undefined`:
there is a non-empty well-formed heap on which `extractMax` returns the
same value as on an empty heap, so the return value alone cannot
distinguish the two situations. -/
theorem claim_C10 (V : Type) :
    (∀ h : Heap V, h.count = 0 → (removeMax h).1 = none) ∧
    (∃ h : Heap V, Inv h ∧ h.count ≠ 0 ∧ (removeMax h).1 = none) := by
  constructor
  · intro h h0
    exact removeMax_fst_zero h0
  · refine ⟨⟨[none, some ⟨some 5, none⟩], 1, 1⟩, ⟨rfl, le_refl _, ?_, ?_⟩,
      by show (1 : Nat) ≠ 0; omega, ?_⟩
    · intro j hj1 hj2
      have hj : j = 1 := by
        have : j ≤ 1 := hj2
        omega
      subst hj
      exact ⟨5, none, rfl⟩
    · intro j hj1 hj2
      have : j ≤ 1 := hj2
      omega
    · rw [removeMax_fst_one rfl]
      rfl

theorem claim_C10_witness :
    ((emptyHeap Unit 3).count = 0 → (removeMax (emptyHeap Unit 3)).1 = none)
      ∧ (removeMax (emptyHeap Unit 3)).1 = none :=
  ⟨fun _ => (claim_C10 Unit).1 (emptyHeap Unit 3) rfl,
   (claim_C10 Unit).1 (emptyHeap Unit 3) rfl⟩


end AdsHeap
